import Mathlib

/-!
Verification of the flow-graph analysis utilities (`crewai/flow/utils.py`).

The Python module is embedded shallowly:

* Python dicts keyed by strings become association lists `List (String × α)`
  with `alookup` / `aset` (overwrite-in-place, append-if-new, matching dict
  update semantics).
* Python sets of strings become duplicate-free lists used only through
  membership (`setInsert`, `setUnion`).
* The breadth-first `calculate_node_levels` loop and the recursive
  `dfs_ancestors` traversal are given an explicit fuel parameter; the fuel
  supplied by the top-level wrappers is proved (resp. argued) sufficient.
* Exceptions (`list.index` raising `ValueError`) are modelled with `Option`.
-/

namespace FlowUtils

/-- Lookup in an association list (Python `d[k]` / `d.get(k)`). -/
def alookup {α : Type} (l : List (String × α)) (k : String) : Option α :=
  match l with
  | [] => none
  | (k', v) :: t => if k' = k then some v else alookup t k

/-- Update in an association list (Python `d[k] = v`): overwrite the existing
binding in place, or append a new binding at the end. -/
def aset {α : Type} (l : List (String × α)) (k : String) (v : α) :
    List (String × α) :=
  match l with
  | [] => [(k, v)]
  | (k', v') :: t => if k' = k then (k, v) :: t else (k', v') :: aset t k v

/-- Python `set.add`: insert a string into a duplicate-free list. -/
def setInsert (x : String) (s : List String) : List String :=
  if x ∈ s then s else x :: s

/-- Python `set.update`: union a list of strings into a duplicate-free list. -/
def setUnion (s add : List String) : List String :=
  add.foldl (fun a x => setInsert x a) s

@[simp] theorem alookup_nil {α : Type} (k : String) :
    alookup ([] : List (String × α)) k = none := rfl

theorem alookup_cons {α : Type} (k' : String) (v : α) (t : List (String × α))
    (k : String) :
    alookup ((k', v) :: t) k = if k' = k then some v else alookup t k := rfl

@[simp] theorem alookup_aset_self {α : Type} (l : List (String × α))
    (k : String) (v : α) : alookup (aset l k v) k = some v := by
  induction l with
  | nil => simp [aset, alookup]
  | cons h t ih =>
    obtain ⟨k', v'⟩ := h
    by_cases hk : k' = k <;> simp [aset, alookup, hk, ih]

@[simp] theorem alookup_aset_ne {α : Type} (l : List (String × α))
    (k k' : String) (v : α) (h : k ≠ k') :
    alookup (aset l k v) k' = alookup l k' := by
  induction l with
  | nil => simp [aset, alookup, h]
  | cons hd t ih =>
    obtain ⟨k0, v0⟩ := hd
    by_cases hk : k0 = k
    · subst hk
      simp [aset, alookup, h]
    · simp [aset, alookup, hk, ih]

theorem mem_of_alookup_eq_some {α : Type} {l : List (String × α)} {k : String}
    {v : α} (h : alookup l k = some v) : (k, v) ∈ l := by
  induction l with
  | nil => simp [alookup] at h
  | cons hd t ih =>
    obtain ⟨k0, v0⟩ := hd
    by_cases hk : k0 = k
    · subst hk
      simp [alookup] at h
      simp [h]
    · simp [alookup, hk] at h
      exact List.mem_cons_of_mem _ (ih h)

theorem alookup_eq_some_of_mem {α : Type} {l : List (String × α)} {k : String}
    {v : α} (hnd : (l.map Prod.fst).Nodup) (h : (k, v) ∈ l) :
    alookup l k = some v := by
  induction l with
  | nil => simp at h
  | cons hd t ih =>
    obtain ⟨k0, v0⟩ := hd
    simp only [List.map_cons, List.nodup_cons] at hnd
    rcases List.mem_cons.1 h with h1 | h1
    · obtain ⟨hk, hv⟩ := Prod.mk.injEq .. ▸ h1
      subst hk; subst hv
      simp [alookup]
    · have hk0 : k0 ≠ k := by
        intro he; subst he
        exact hnd.1 (List.mem_map_of_mem Prod.fst h1)
      simp [alookup, hk0]
      exact ih hnd.2 h1

@[simp] theorem mem_setInsert (x y : String) (s : List String) :
    y ∈ setInsert x s ↔ y = x ∨ y ∈ s := by
  unfold setInsert
  by_cases h : x ∈ s
  · simp [h]
    intro he; subst he; exact h
  · simp [h]

@[simp] theorem mem_setUnion (y : String) (s add : List String) :
    y ∈ setUnion s add ↔ y ∈ s ∨ y ∈ add := by
  induction add generalizing s with
  | nil => simp [setUnion]
  | cons a t ih =>
    simp only [setUnion, List.foldl_cons] at *
    rw [ih]
    simp [mem_setInsert]
    tauto

/-- Listener join mode (`condition_type` in the Python tables): `"OR"`/`"AND"`. -/
inductive CondType where
  | OR : CondType
  | AND : CondType
deriving DecidableEq, Repr

/-- The graph model consumed by the analyses: the read-only tables of a flow
object.  `methods` is `flow._methods` in dict order, paired with the
`__is_start_method__` flag; `listeners` is `flow._listeners`
(`name ↦ (condition_type, trigger_methods)`) in dict order; `routers` is
`flow._routers` (membership only); `routerPaths` is `flow._router_paths`. -/
structure Flow where
  methods : List (String × Bool)
  listeners : List (String × CondType × List String)
  routers : List String
  routerPaths : List (String × List String)

/-- Declared paths of a router (`flow._router_paths.get(name, [])`). -/
def pathsD (flow : Flow) (r : String) : List String :=
  (alookup flow.routerPaths r).getD []

/-- Names of the listeners (the keys of `flow._listeners`). -/
def listenerNames (flow : Flow) : List String := flow.listeners.map (·.1)

/-- Names of the methods (the keys of `flow._methods`). -/
def methodNames (flow : Flow) : List String := flow.methods.map (·.1)

/-- Append `x` to a list unless already present (the
`if x not in l: l.append(x)` idiom of `build_parent_children_dict`). -/
def appendNew (l : List String) (x : String) : List String :=
  if x ∈ l then l else l ++ [x]

/-- `build_parent_children_dict(flow)`: map each trigger to the list of
listeners it triggers, then map each router to the listeners of its paths. -/
def build_parent_children_dict (flow : Flow) : List (String × List String) :=
  let pc := flow.listeners.foldl
    (fun pc e => e.2.2.foldl
      (fun pc trigger =>
        aset pc trigger (appendNew ((alookup pc trigger).getD []) e.1)) pc)
    []
  flow.routerPaths.foldl
    (fun pc rp => rp.2.foldl
      (fun pc path => flow.listeners.foldl
        (fun pc e =>
          if path ∈ e.2.2 then
            aset pc rp.1 (appendNew ((alookup pc rp.1).getD []) e.1)
          else pc) pc) pc)
    pc

/-- Lexicographic strict order on code sequences: Python's `<` on strings
compares code points left to right, a strict prefix being smaller. -/
def lexLt : List Nat → List Nat → Bool
  | [], [] => false
  | [], _ :: _ => true
  | _ :: _, [] => false
  | a :: as, b :: bs =>
      if a < b then true else if b < a then false else lexLt as bs

/-- The code points of a string. -/
def codes (s : String) : List Nat := s.data.map Char.toNat

/-- Python's `a < b` on strings. -/
def strLt (a b : String) : Prop := lexLt (codes a) (codes b) = true

/-- Python's `a <= b` on strings. -/
def strLe (a b : String) : Prop := strLt a b ∨ a = b

instance : DecidableRel strLt := fun _ _ => inferInstanceAs (Decidable (_ = true))

instance : DecidableRel strLe := fun _ _ => inferInstanceAs (Decidable (_ ∨ _))

theorem lexLt_irrefl (x : List Nat) : lexLt x x = false := by
  induction x with
  | nil => rfl
  | cons a as ih => simp [lexLt, ih]

theorem lexLt_trans {x y z : List Nat} (h1 : lexLt x y = true)
    (h2 : lexLt y z = true) : lexLt x z = true := by
  induction x generalizing y z with
  | nil =>
    cases y with
    | nil => simp [lexLt] at h1
    | cons b bs =>
      cases z with
      | nil => simp [lexLt] at h2
      | cons c cs => rfl
  | cons a as ih =>
    cases y with
    | nil => simp [lexLt] at h1
    | cons b bs =>
      cases z with
      | nil => simp [lexLt] at h2
      | cons c cs =>
        simp only [lexLt] at h1 h2 ⊢
        by_cases hab : a < b
        · by_cases hbc : b < c
          · simp [Nat.lt_trans hab hbc]
          · by_cases hcb : c < b
            · simp [hbc, hcb] at h2
            · have hbc' : b = c := by omega
              subst hbc'
              simp [hab]
        · by_cases hba : b < a
          · simp [hab, hba] at h1
          · have hab' : a = b := by omega
            subst hab'
            simp only [lt_irrefl, if_false] at h1
            by_cases hbc : a < c
            · simp [hbc]
            · by_cases hcb : c < a
              · simp [hbc, hcb] at h2
              · have : a = c := by omega
                subst this
                simp only [lt_irrefl, if_false] at h2 ⊢
                exact ih h1 h2

theorem lexLt_eq_of_not {x y : List Nat} (h1 : lexLt x y = false)
    (h2 : lexLt y x = false) : x = y := by
  induction x generalizing y with
  | nil =>
    cases y with
    | nil => rfl
    | cons b bs => simp [lexLt] at h1
  | cons a as ih =>
    cases y with
    | nil => simp [lexLt] at h2
    | cons b bs =>
      simp only [lexLt] at h1 h2
      by_cases hab : a < b
      · simp [hab] at h1
      · by_cases hba : b < a
        · simp [hab, hba] at h2
        · have : a = b := by omega
          subst this
          simp only [lt_irrefl, if_false] at h1 h2
          rw [ih h1 h2]

theorem codes_inj {a b : String} (h : codes a = codes b) : a = b := by
  have key : ∀ l1 l2 : List Char, l1.map Char.toNat = l2.map Char.toNat →
      l1 = l2 := by
    intro l1
    induction l1 with
    | nil => intro l2 h2; cases l2 <;> simp_all
    | cons c cs ih =>
      intro l2 h2
      cases l2 with
      | nil => simp at h2
      | cons d ds =>
        simp only [List.map_cons, List.cons.injEq] at h2
        have hc : c = d := by
          have := congrArg Char.ofNat h2.1
          rwa [Char.ofNat_toNat, Char.ofNat_toNat] at this
        rw [hc, ih ds h2.2]
  have hd : a.data = b.data := key _ _ h
  cases a; cases b
  exact congrArg String.mk hd

theorem strLt_irrefl (a : String) : ¬ strLt a a := by
  simp [strLt, lexLt_irrefl]

theorem strLe_total (a b : String) : strLe a b ∨ strLe b a := by
  by_cases h1 : lexLt (codes a) (codes b) = true
  · exact Or.inl (Or.inl h1)
  · by_cases h2 : lexLt (codes b) (codes a) = true
    · exact Or.inr (Or.inl h2)
    · exact Or.inl (Or.inr (codes_inj
        (lexLt_eq_of_not (Bool.eq_false_iff.2 h1) (Bool.eq_false_iff.2 h2))))

theorem strLe_trans {a b c : String} (h1 : strLe a b) (h2 : strLe b c) :
    strLe a c := by
  rcases h1 with h1 | h1
  · rcases h2 with h2 | h2
    · exact Or.inl (lexLt_trans h1 h2)
    · subst h2; exact Or.inl h1
  · subst h1; exact h2

theorem strLe_antisymm {a b : String} (h1 : strLe a b) (h2 : strLe b a) :
    a = b := by
  rcases h1 with h1 | h1
  · rcases h2 with h2 | h2
    · exact absurd (lexLt_trans h1 h2) (by simpa [strLt] using strLt_irrefl a)
    · exact h2.symm
  · exact h1

theorem strLt_or_le (a b : String) : strLt a b ∨ strLe b a := by
  rcases strLe_total a b with h | h
  · rcases h with h | h
    · exact Or.inl h
    · exact Or.inr (Or.inr h.symm)
  · exact Or.inr h

instance : IsTotal String strLe := ⟨strLe_total⟩

instance : IsTrans String strLe := ⟨fun _ _ _ => strLe_trans⟩

instance : IsAntisymm String strLe := ⟨fun _ _ => strLe_antisymm⟩

/-- Python's stable ascending `list.sort()` on strings.  Any stable sort
computes the same list, so the choice of insertion sort is immaterial. -/
def pysort (l : List String) : List String := l.insertionSort strLe

/-- `get_child_index(parent, child, parent_children)`.  The first component is
the result of `children.index(child)` (`none` models the `ValueError` raised
when `child` is absent); the second component is the dictionary after the
in-place `children.sort()` (a no-op when `parent` has no entry, since
`.get(parent, [])` then produces a fresh list). -/
def get_child_index (parent child : String)
    (parent_children : List (String × List String)) :
    Option Nat × List (String × List String) :=
  match alookup parent_children parent with
  | some cs =>
      (List.findIdx? (fun x => x = child) (pysort cs),
        aset parent_children parent (pysort cs))
  | none => (none, parent_children)

theorem pysort_sorted (l : List String) : List.Sorted strLe (pysort l) :=
  List.sorted_insertionSort _ l

theorem pysort_perm (l : List String) : (pysort l).Perm l :=
  List.perm_insertionSort _ l

theorem pysort_eq_of_perm {l l' : List String} (h : l.Perm l') :
    pysort l = pysort l' :=
  List.eq_of_perm_of_sorted ((pysort_perm l).trans (h.trans (pysort_perm l').symm))
    (pysort_sorted l) (pysort_sorted l')

/-- In a sorted duplicate-free list that contains `child`, `list.index` finds
it at the position equal to the number of smaller elements. -/
theorem findIdx_sorted_nodup (s : List String) (child : String)
    (hs : List.Sorted strLe s) (hnd : s.Nodup) (hmem : child ∈ s) :
    List.findIdx? (fun x => x = child) s =
      some ((s.filter (fun x => decide (strLt x child))).length) := by
  induction s with
  | nil => simp at hmem
  | cons a t ih =>
    rw [List.sorted_cons] at hs
    rw [List.nodup_cons] at hnd
    by_cases ha : a = child
    · subst ha
      have hfil : t.filter (fun x => decide (strLt x a)) = [] := by
        rw [List.filter_eq_nil_iff]
        intro x hx
        have h1 : strLe a x := hs.1 x hx
        have h2 : x ≠ a := fun he => hnd.1 (he ▸ hx)
        simp only [decide_eq_true_eq]
        exact fun hlt => h2 (strLe_antisymm (Or.inl hlt) h1)
      rw [List.findIdx?_cons, List.filter_cons, if_pos (by simp),
        if_neg (by simp only [decide_eq_true_eq]; exact strLt_irrefl a), hfil]
      rfl
    · have hmem' : child ∈ t := by
        rcases List.mem_cons.1 hmem with h | h
        · exact absurd h.symm ha
        · exact h
      have halt : strLt a child := by
        rcases strLt_or_le a child with h | h
        · exact h
        · exact absurd (strLe_antisymm (hs.1 child hmem') h) ha
      rw [List.findIdx?_cons, if_neg (by simp [ha]), List.findIdx?_succ,
        ih hs.2 hnd.2 hmem', List.filter_cons, if_pos (by simp [halt])]
      rfl

/-- C7: for every parent-children map and every parent with an entry,
`get_child_index` returns the zero-based position of `child` in the parent's
child list after sorting it lexicographically at lookup time (the position
equals the number of strictly smaller children), the result is independent of
the insertion order of the children (any permutation of the stored list gives
the same index), the stored list is replaced by its sorted version (the
in-place `children.sort()`), and children inserted as `["b","a","c"]` yield
indices `a = 0`, `b = 1`, `c = 2`. -/
theorem claim_C7 (pc : List (String × List String)) (parent child : String)
    (cs : List String) (hcs : alookup pc parent = some cs) (hnd : cs.Nodup) :
    ((get_child_index parent child pc).2 = aset pc parent (pysort cs)
      ∧ List.Sorted strLe (pysort cs) ∧ (pysort cs).Perm cs)
    ∧ (∀ pc' cs', alookup pc' parent = some cs' → cs.Perm cs' →
        (get_child_index parent child pc').1 = (get_child_index parent child pc).1)
    ∧ (child ∈ cs →
        (get_child_index parent child pc).1 =
          some ((cs.filter (fun x => decide (strLt x child))).length))
    ∧ ((get_child_index "P" "a" [("P", ["b", "a", "c"])]).1 = some 0
        ∧ (get_child_index "P" "b" [("P", ["b", "a", "c"])]).1 = some 1
        ∧ (get_child_index "P" "c" [("P", ["b", "a", "c"])]).1 = some 2
        ∧ (get_child_index "P" "a" [("P", ["b", "a", "c"])]).2
            = [("P", ["a", "b", "c"])]) := by
  refine ⟨⟨?_, pysort_sorted cs, pysort_perm cs⟩, ?_, ?_, by decide, by decide,
    by decide, by decide⟩
  · simp [get_child_index, hcs]
  · intro pc' cs' hcs' hperm
    simp [get_child_index, hcs, hcs', pysort_eq_of_perm hperm]
  · intro hmem
    have hnd' : (pysort cs).Nodup := ((pysort_perm cs).nodup_iff).2 hnd
    have hmem' : child ∈ pysort cs := ((pysort_perm cs).mem_iff).2 hmem
    have hlen : ((pysort cs).filter (fun x => decide (strLt x child))).length
        = (cs.filter (fun x => decide (strLt x child))).length :=
      ((pysort_perm cs).filter _).length_eq
    simp only [get_child_index, hcs]
    rw [findIdx_sorted_nodup (pysort cs) child (pysort_sorted cs) hnd' hmem',
      hlen]

theorem claim_C7_witness :
    (get_child_index "P" "a" [("P", ["b", "a", "c"])]).1 = some 0 :=
  (claim_C7 [("P", ["b", "a", "c"])] "P" "a" ["b", "a", "c"] (by decide)
    (by decide)).2.2.2.1

/-- C10: `get_child_index` signals an error (modelled as `none`, for the
`ValueError` that `children.index(child)` raises) exactly when `child` is
absent from the parent's child list; in particular, when `parent` has no entry
at all, the lookup falls back to an empty list and every query fails. -/
theorem claim_C10 (pc : List (String × List String)) (parent child : String) :
    ((get_child_index parent child pc).1 = none
        ↔ child ∉ (alookup pc parent).getD [])
    ∧ (alookup pc parent = none → (get_child_index parent child pc).1 = none) := by
  constructor
  · cases hcs : alookup pc parent with
    | none => simp [get_child_index, hcs]
    | some cs =>
      simp only [get_child_index, hcs, Option.getD_some]
      constructor
      · intro hnone hmem
        have hmem' : child ∈ pysort cs := ((pysort_perm cs).mem_iff).2 hmem
        have : (List.findIdx? (fun x => x = child) (pysort cs)).isSome
            = ((pysort cs).any (fun x => x = child)) := List.findIdx?_isSome
        rw [hnone] at this
        have hany : (pysort cs).any (fun x => x = child) = true :=
          List.any_eq_true.2 ⟨child, hmem', by simp⟩
        rw [hany] at this
        exact Bool.false_ne_true this
      · intro hmem
        cases hfind : List.findIdx? (fun x => x = child) (pysort cs) with
        | none => rfl
        | some k =>
          exfalso
          have : (List.findIdx? (fun x => x = child) (pysort cs)).isSome
              = ((pysort cs).any (fun x => x = child)) := List.findIdx?_isSome
          rw [hfind] at this
          have hex := List.any_eq_true.1 this.symm
          obtain ⟨x, hx, hxe⟩ := hex
          simp only [decide_eq_true_eq] at hxe
          exact hmem (((pysort_perm cs).mem_iff).1 (hxe ▸ hx))
  · intro hcs
    simp [get_child_index, hcs]

theorem claim_C10_witness :
    (get_child_index "Q" "z" [("P", ["b", "a", "c"])]).1 = none :=
  (claim_C10 [("P", ["b", "a", "c"])] "Q" "z").2 (by decide)

/-! ### Outcome Extractor (`get_possible_return_constants`)

The AST shapes the two visitors inspect are embedded structurally: an
expression is a string constant, another constant, a bare name, a dictionary
literal (only its values matter — the code never reads the keys), a
subscript, or anything else.  A statement is an assignment, a `return`, a
no-op, or `seq a b` — two consecutive statements, which also stands for a
compound statement with a nested body, since the `ast.NodeVisitor`
`generic_visit` traversal just walks all statements in document order. -/

inductive PyExpr where
  | constStr (s : String)
  | constOther
  | name (id : String)
  | dict (values : List PyExpr)
  | subscript (base : PyExpr)
  | otherExpr

inductive PyStmt where
  | assign (targets : List PyExpr) (value : PyExpr)
  | ret (value : Option PyExpr)
  | seq (a b : PyStmt)
  | pass

/-- The string values of a dictionary literal, in order (non-strings are
skipped, exactly as in `DictionaryAssignmentVisitor.visit_Assign`). -/
def stringValues (vals : List PyExpr) : List String :=
  vals.foldr
    (fun v acc => match v with | PyExpr.constStr s => s :: acc | _ => acc) []

/-- The effect of `DictionaryAssignmentVisitor.visit_Assign` on the recorded
table: an assignment of a dictionary literal with at least one string value
to a single name records that name (overwriting an earlier record). -/
def dictAssignStep (acc : List (String × List String)) (targets : List PyExpr)
    (value : PyExpr) : List (String × List String) :=
  match targets, value with
  | [PyExpr.name v], PyExpr.dict vals =>
      if stringValues vals = [] then acc else aset acc v (stringValues vals)
  | _, _ => acc

/-- `DictionaryAssignmentVisitor`: record, in document order, each assignment
of a dictionary literal with at least one string value to a single name. -/
def dictPass : PyStmt → List (String × List String) →
    List (String × List String)
  | PyStmt.assign targets value, acc => dictAssignStep acc targets value
  | PyStmt.ret _, acc => acc
  | PyStmt.seq a b, acc => dictPass b (dictPass a acc)
  | PyStmt.pass, acc => acc

/-- The effect of `ReturnVisitor.visit_Return` on the accumulated value set:
a direct string literal is added; a subscript of a name recorded in `dd`
contributes all its recorded string values; every other shape contributes
nothing. -/
def retValueContrib (dd : List (String × List String)) :
    Option PyExpr → List String → List String
  | none, acc => acc
  | some (PyExpr.constStr s), acc => setInsert s acc
  | some PyExpr.constOther, acc => acc
  | some (PyExpr.name _), acc => acc
  | some (PyExpr.dict _), acc => acc
  | some (PyExpr.subscript (PyExpr.name var)), acc =>
      match alookup dd var with
      | some vs => setUnion acc vs
      | none => acc
  | some (PyExpr.subscript (PyExpr.constStr _)), acc => acc
  | some (PyExpr.subscript PyExpr.constOther), acc => acc
  | some (PyExpr.subscript (PyExpr.dict _)), acc => acc
  | some (PyExpr.subscript (PyExpr.subscript _)), acc => acc
  | some (PyExpr.subscript PyExpr.otherExpr), acc => acc
  | some PyExpr.otherExpr, acc => acc

/-- `ReturnVisitor`: collect direct string returns, and for a return that
subscripts a recorded dictionary variable, all of that variable's recorded
string values. -/
def returnPass (dd : List (String × List String)) :
    PyStmt → List String → List String
  | PyStmt.assign _ _, acc => acc
  | PyStmt.ret v, acc => retValueContrib dd v acc
  | PyStmt.seq a b, acc => returnPass dd b (returnPass dd a acc)
  | PyStmt.pass, acc => acc

/-- `get_possible_return_constants(function)`.  `none` as input models every
failure to obtain a parsed source tree (`inspect.getsource` raising,
`textwrap.dedent`/`ast.parse` failing): all those paths return `None`. -/
def get_possible_return_constants (source : Option PyStmt) :
    Option (List String) :=
  match source with
  | none => none
  | some body =>
      let dict_definitions := dictPass body []
      let return_values := returnPass dict_definitions body []
      if return_values = [] then none else some return_values

/-- All `return` statements of a statement tree, in document order. -/
def allReturns : PyStmt → List (Option PyExpr)
  | PyStmt.assign _ _ => []
  | PyStmt.ret v => [v]
  | PyStmt.seq a b => allReturns a ++ allReturns b
  | PyStmt.pass => []

/-- A single return expression hitting the collected set: it is a string
literal equal to `s`, or it subscripts a variable recorded in `dd` one of
whose recorded values is `s`. -/
def retHit (dd : List (String × List String)) (v : Option PyExpr)
    (s : String) : Prop :=
  v = some (PyExpr.constStr s) ∨
    ∃ var vs, v = some (PyExpr.subscript (PyExpr.name var)) ∧
      alookup dd var = some vs ∧ s ∈ vs

/-- The union described by the spec: some return statement contributes `s`. -/
def retContrib (dd : List (String × List String)) (body : PyStmt)
    (s : String) : Prop :=
  ∃ r ∈ allReturns body, retHit dd r s

theorem mem_retValueContrib (dd : List (String × List String))
    (v : Option PyExpr) (acc : List String) (s : String) :
    s ∈ retValueContrib dd v acc ↔ s ∈ acc ∨ retHit dd v s := by
  have htriv : ∀ v' : Option PyExpr,
      (∀ s', v' ≠ some (PyExpr.constStr s')) →
      (∀ var, v' ≠ some (PyExpr.subscript (PyExpr.name var))) →
      retValueContrib dd v' acc = acc →
      (s ∈ retValueContrib dd v' acc ↔ s ∈ acc ∨ retHit dd v' s) := by
    intro v' h1 h2 h3
    rw [h3]
    constructor
    · exact Or.inl
    · rintro (h | h | ⟨var, vs, he, _⟩)
      · exact h
      · exact absurd h (h1 s)
      · exact absurd he (h2 var)
  match v with
  | none => exact htriv none (fun _ h => by cases h) (fun _ h => by cases h) rfl
  | some PyExpr.constOther =>
      exact htriv _ (fun _ h => by simp at h) (fun _ h => by simp at h) rfl
  | some (PyExpr.name n) =>
      exact htriv _ (fun _ h => by simp at h) (fun _ h => by simp at h) rfl
  | some (PyExpr.dict vals) =>
      exact htriv _ (fun _ h => by simp at h) (fun _ h => by simp at h) rfl
  | some PyExpr.otherExpr =>
      exact htriv _ (fun _ h => by simp at h) (fun _ h => by simp at h) rfl
  | some (PyExpr.subscript (PyExpr.constStr s')) =>
      exact htriv _ (fun _ h => by simp at h) (fun _ h => by simp at h) rfl
  | some (PyExpr.subscript PyExpr.constOther) =>
      exact htriv _ (fun _ h => by simp at h) (fun _ h => by simp at h) rfl
  | some (PyExpr.subscript (PyExpr.dict vals)) =>
      exact htriv _ (fun _ h => by simp at h) (fun _ h => by simp at h) rfl
  | some (PyExpr.subscript (PyExpr.subscript e)) =>
      exact htriv _ (fun _ h => by simp at h) (fun _ h => by simp at h) rfl
  | some (PyExpr.subscript PyExpr.otherExpr) =>
      exact htriv _ (fun _ h => by simp at h) (fun _ h => by simp at h) rfl
  | some (PyExpr.constStr s') =>
      constructor
      · intro h
        rw [show retValueContrib dd (some (PyExpr.constStr s')) acc
            = setInsert s' acc from rfl, mem_setInsert] at h
        rcases h with h | h
        · exact Or.inr (Or.inl (by rw [h]))
        · exact Or.inl h
      · intro h
        rw [show retValueContrib dd (some (PyExpr.constStr s')) acc
            = setInsert s' acc from rfl, mem_setInsert]
        rcases h with h | h | ⟨var, vs, he, _⟩
        · exact Or.inr h
        · injection h with h1
          injection h1 with h2
          exact Or.inl h2.symm
        · simp at he
  | some (PyExpr.subscript (PyExpr.name var)) =>
      have hred : retValueContrib dd (some (PyExpr.subscript (PyExpr.name var))) acc
          = (match alookup dd var with
             | some vs => setUnion acc vs
             | none => acc) := rfl
      rw [hred]
      cases hdd : alookup dd var with
      | none =>
          constructor
          · exact Or.inl
          · rintro (h | h | ⟨var', vs, he, hl, _⟩)
            · exact h
            · simp at h
            · injection he with h1
              injection h1 with h2
              injection h2 with h3
              subst h3
              rw [hdd] at hl
              cases hl
      | some vs =>
          rw [mem_setUnion]
          constructor
          · rintro (h | h)
            · exact Or.inl h
            · exact Or.inr (Or.inr ⟨var, vs, rfl, hdd, h⟩)
          · rintro (h | h | ⟨var', vs', he, hl, hm⟩)
            · exact Or.inl h
            · simp at h
            · injection he with h1
              injection h1 with h2
              injection h2 with h3
              subst h3
              rw [hdd] at hl
              injection hl with h4
              subst h4
              exact Or.inr hm

theorem mem_returnPass (dd : List (String × List String)) (body : PyStmt) :
    ∀ (acc : List String) (s : String),
      s ∈ returnPass dd body acc ↔ s ∈ acc ∨ retContrib dd body s := by
  induction body with
  | assign t v =>
      intro acc s
      simp [returnPass, retContrib, allReturns]
  | pass =>
      intro acc s
      simp [returnPass, retContrib, allReturns]
  | ret v =>
      intro acc s
      rw [show returnPass dd (PyStmt.ret v) acc = retValueContrib dd v acc from rfl,
        mem_retValueContrib]
      simp only [retContrib, allReturns, List.mem_singleton]
      constructor
      · rintro (h | h)
        · exact Or.inl h
        · exact Or.inr ⟨v, rfl, h⟩
      · rintro (h | ⟨r, hr, hc⟩)
        · exact Or.inl h
        · exact Or.inr (hr ▸ hc)
  | seq a b iha ihb =>
      intro acc s
      rw [show returnPass dd (PyStmt.seq a b) acc
          = returnPass dd b (returnPass dd a acc) from rfl, ihb, iha]
      simp only [retContrib, allReturns, List.mem_append]
      constructor
      · rintro ((h | ⟨r, hr, hc⟩) | ⟨r, hr, hc⟩)
        · exact Or.inl h
        · exact Or.inr ⟨r, Or.inl hr, hc⟩
        · exact Or.inr ⟨r, Or.inr hr, hc⟩
      · rintro (h | ⟨r, hr | hr, hc⟩)
        · exact Or.inl (Or.inl h)
        · exact Or.inl (Or.inr ⟨r, hr, hc⟩)
        · exact Or.inr ⟨r, hr, hc⟩

/-- C8: for every router definition, `get_possible_return_constants` returns
exactly the union of (a) every string literal returned directly and (b) for
every return subscripting a variable recorded by the first pass as bound to a
dictionary literal with at least one string value, all recorded string values
of that dictionary; when this union is empty the result is absent, and when
the source is unavailable or fails to parse (input `none`) the result is
absent; the function is total, so no exception escapes it. -/
theorem claim_C8 (source : Option PyStmt) :
    (source = none → get_possible_return_constants source = none)
    ∧ (∀ body, source = some body →
        ((get_possible_return_constants source = none
            ↔ ∀ s, ¬ retContrib (dictPass body []) body s)
          ∧ (∀ l, get_possible_return_constants source = some l →
              ∀ s, (s ∈ l ↔ retContrib (dictPass body []) body s)))) := by
  constructor
  · intro h; rw [h]; rfl
  · intro body hb
    subst hb
    have hmem : ∀ s, s ∈ returnPass (dictPass body []) body []
        ↔ retContrib (dictPass body []) body s := by
      intro s
      rw [mem_returnPass]
      simp
    constructor
    · rw [show get_possible_return_constants (some body)
          = (if returnPass (dictPass body []) body [] = [] then none
             else some (returnPass (dictPass body []) body [])) from rfl]
      by_cases he : returnPass (dictPass body []) body [] = []
      · simp only [he, if_pos rfl]
        constructor
        · intro _ s hs
          rw [← hmem s] at hs
          rw [he] at hs
          cases hs
        · intro _; rfl
      · simp only [if_neg he]
        constructor
        · intro h; cases h
        · intro hall
          exfalso
          apply he
          rw [List.eq_nil_iff_forall_not_mem]
          intro s hs
          exact hall s ((hmem s).1 hs)
    · intro l hl s
      rw [show get_possible_return_constants (some body)
          = (if returnPass (dictPass body []) body [] = [] then none
             else some (returnPass (dictPass body []) body [])) from rfl] at hl
      by_cases he : returnPass (dictPass body []) body [] = []
      · rw [if_pos he] at hl; cases hl
      · rw [if_neg he] at hl
        injection hl with hl
        rw [← hl]
        exact hmem s

theorem claim_C8_witness :
    ("go" ∈ ["stop", "go"]
      ↔ retContrib
          (dictPass
            (PyStmt.seq
              (PyStmt.assign [PyExpr.name "paths"]
                (PyExpr.dict [PyExpr.constStr "go", PyExpr.constStr "stop"]))
              (PyStmt.ret (some (PyExpr.subscript (PyExpr.name "paths"))))) [])
          (PyStmt.seq
            (PyStmt.assign [PyExpr.name "paths"]
              (PyExpr.dict [PyExpr.constStr "go", PyExpr.constStr "stop"]))
            (PyStmt.ret (some (PyExpr.subscript (PyExpr.name "paths")))))
          "go") :=
  ((claim_C8 (some
      (PyStmt.seq
        (PyStmt.assign [PyExpr.name "paths"]
          (PyExpr.dict [PyExpr.constStr "go", PyExpr.constStr "stop"]))
        (PyStmt.ret (some (PyExpr.subscript (PyExpr.name "paths"))))))).2
    _ rfl).2 ["stop", "go"] (by decide) "go"

/-! ### Ancestor Resolver (`build_ancestor_dict` / `dfs_ancestors`) -/

/-- The mutable state threaded through `dfs_ancestors`: the `ancestors`
dictionary and the shared `visited` set. -/
structure AncState where
  anc : List (String × List String)
  visited : List String

/-- `ancestors[n]` as a set (all keys are created up front by
`build_ancestor_dict`, so the `[]` default is only a modelling device). -/
def ancD (st : AncState) (n : String) : List String := (alookup st.anc n).getD []

/-- `ancestors[listener_name].add(node)` followed by
`ancestors[listener_name].update(ancestors[node])` (lines 172-173). -/
def ancUpdListen (s : AncState) (node ln : String) : AncState :=
  { s with anc := aset s.anc ln (setUnion (setInsert node (ancD s ln)) (ancD s node)) }

/-- `ancestors[listener_name].update(ancestors[node])` only (line 184): the
router's own name is not added. -/
def ancUpdRouter (s : AncState) (node ln : String) : AncState :=
  { s with anc := aset s.anc ln (setUnion (ancD s ln) (ancD s node)) }

/-- The `# Handle regular listeners` loop of `dfs_ancestors` (lines 170-174):
for every listener triggered by `node`, add `node` and `node`'s ancestors to
its set and recurse (`rcall` is the recursive call at the remaining fuel). -/
def dfsListenPhase (flow : Flow) (rcall : String → AncState → AncState)
    (node : String) (s : AncState) : AncState :=
  flow.listeners.foldl
    (fun t e =>
      if node ∈ e.2.2 then rcall e.1 (ancUpdListen t node e.1) else t) s

/-- The `# Handle router methods separately` block of `dfs_ancestors`
(lines 177-185): for every declared path and every listener triggered by the
path label, union only the router's ancestors into its set and recurse. -/
def dfsRouterPhase (flow : Flow) (rcall : String → AncState → AncState)
    (node : String) (s : AncState) : AncState :=
  if node ∈ flow.routers then
    (pathsD flow node).foldl
      (fun t path => flow.listeners.foldl
        (fun t e =>
          if path ∈ e.2.2 then rcall e.1 (ancUpdRouter t node e.1) else t) t) s
  else s

/-- `dfs_ancestors(node, ancestors, visited, flow)`, with explicit fuel
bounding the recursion depth.  With fuel `0` an unvisited node is returned
unchanged, exactly like a visited one, so any fuel larger than the number of
distinct reachable names gives the Python behaviour. -/
def dfs_ancestors (flow : Flow) : Nat → String → AncState → AncState
  | 0, _, st => st
  | fuel + 1, node, st =>
    if node ∈ st.visited then st
    else
      dfsRouterPhase flow (dfs_ancestors flow fuel) node
        (dfsListenPhase flow (dfs_ancestors flow fuel) node
          { st with visited := setInsert node st.visited })

/-- Recursion depth available to `dfs_ancestors`: one more than the number of
names that can ever be marked visited. -/
def ancFuel (flow : Flow) : Nat :=
  flow.methods.length + flow.listeners.length + 1

/-- `build_ancestor_dict(flow)`. -/
def build_ancestor_dict (flow : Flow) : List (String × List String) :=
  (flow.methods.foldl
    (fun st m =>
      if m.1 ∈ st.visited then st else dfs_ancestors flow (ancFuel flow) m.1 st)
    { anc := flow.methods.map (fun m => (m.1, [])), visited := [] }).anc

/-- State growth: ancestor sets and the visited set only ever grow. -/
def AncLE (s s' : AncState) : Prop :=
  (∀ n x, x ∈ ancD s n → x ∈ ancD s' n) ∧ (∀ x, x ∈ s.visited → x ∈ s'.visited)

theorem AncLE.refl (s : AncState) : AncLE s s := ⟨fun _ _ h => h, fun _ h => h⟩

theorem AncLE.trans {a b c : AncState} (h1 : AncLE a b) (h2 : AncLE b c) :
    AncLE a c :=
  ⟨fun n x h => h2.1 n x (h1.1 n x h), fun x h => h2.2 x (h1.2 x h)⟩

theorem ancD_aset (s : AncState) (ln : String) (v : List String) (n : String) :
    ancD { s with anc := aset s.anc ln v } n = if ln = n then v else ancD s n := by
  by_cases h : ln = n
  · subst h
    simp [ancD]
  · simp [ancD, h]

theorem mem_ancD_updListen (s : AncState) (node ln n x : String) :
    x ∈ ancD (ancUpdListen s node ln) n ↔
      x ∈ ancD s n ∨ (ln = n ∧ (x = node ∨ x ∈ ancD s node)) := by
  rw [ancUpdListen, ancD_aset]
  by_cases h : ln = n
  · subst h
    simp [mem_setUnion, mem_setInsert]
    tauto
  · simp [h]

theorem mem_ancD_updRouter (s : AncState) (node ln n x : String) :
    x ∈ ancD (ancUpdRouter s node ln) n ↔
      x ∈ ancD s n ∨ (ln = n ∧ x ∈ ancD s node) := by
  rw [ancUpdRouter, ancD_aset]
  by_cases h : ln = n
  · subst h
    simp [mem_setUnion]
  · simp [h]

theorem ancLE_updListen (s : AncState) (node ln : String) :
    AncLE s (ancUpdListen s node ln) := by
  refine ⟨fun n x h => ?_, fun x h => h⟩
  rw [mem_ancD_updListen]
  exact Or.inl h

theorem ancLE_updRouter (s : AncState) (node ln : String) :
    AncLE s (ancUpdRouter s node ln) := by
  refine ⟨fun n x h => ?_, fun x h => h⟩
  rw [mem_ancD_updRouter]
  exact Or.inl h

/-- A state transformer that only grows the state, and that gives every name
it newly marks visited all of that name's direct trigger edges. -/
def StepOK (flow : Flow) (f : AncState → AncState) : Prop :=
  ∀ s, AncLE s (f s) ∧
    ∀ w, w ∈ (f s).visited → w ∉ s.visited →
      ∀ e ∈ flow.listeners, w ∈ e.2.2 → w ∈ ancD (f s) e.1

theorem stepOK_of_eq (flow : Flow) (f : AncState → AncState)
    (h : ∀ s, f s = s) : StepOK flow f := by
  intro s
  rw [h]
  exact ⟨AncLE.refl s, fun w hw hw' => absurd hw hw'⟩

theorem stepOK_of_ancLE_visited (flow : Flow) (f : AncState → AncState)
    (h1 : ∀ s, AncLE s (f s)) (h2 : ∀ s, (f s).visited = s.visited) :
    StepOK flow f := by
  intro s
  refine ⟨h1 s, fun w hw hw' => ?_⟩
  rw [h2] at hw
  exact absurd hw hw'

theorem stepOK_comp (flow : Flow) (f g : AncState → AncState)
    (hf : StepOK flow f) (hg : StepOK flow g) :
    StepOK flow (fun s => g (f s)) := by
  intro s
  refine ⟨(hf s).1.trans (hg (f s)).1, fun w hw hw' e he hwe => ?_⟩
  by_cases hmid : w ∈ (f s).visited
  · exact ((hg (f s)).1).1 _ _ ((hf s).2 w hmid hw' e he hwe)
  · exact (hg (f s)).2 w hw hmid e he hwe

theorem stepOK_foldl {β : Type} (flow : Flow) (g : AncState → β → AncState)
    (l : List β) (h : ∀ b ∈ l, StepOK flow (fun s => g s b)) :
    StepOK flow (fun s => l.foldl g s) := by
  induction l with
  | nil => exact stepOK_of_eq flow _ (fun s => rfl)
  | cons b t ih =>
    have hb := h b (List.mem_cons_self b t)
    have ht := ih (fun b' hb' => h b' (List.mem_cons_of_mem b hb'))
    exact stepOK_comp flow _ _ hb ht

theorem stepOK_if {c : Prop} [Decidable c] (flow : Flow)
    (f g : AncState → AncState) (hf : StepOK flow f) (hg : StepOK flow g) :
    StepOK flow (fun s => if c then f s else g s) := by
  by_cases h : c
  · simpa [h] using hf
  · simpa [h] using hg

/-- Every step of the listener loop is well behaved, as is the whole loop. -/
theorem stepOK_listenPhase (flow : Flow) (rcall : String → AncState → AncState)
    (node : String) (hrc : ∀ ln, StepOK flow (rcall ln)) :
    StepOK flow (dfsListenPhase flow rcall node) := by
  apply stepOK_foldl
  intro e _
  have hupd : StepOK flow (fun s => ancUpdListen s node e.1) :=
    stepOK_of_ancLE_visited flow _ (fun s => ancLE_updListen s node e.1)
      (fun s => rfl)
  have hthen : StepOK flow (fun s => rcall e.1 (ancUpdListen s node e.1)) :=
    stepOK_comp flow _ _ hupd (hrc e.1)
  exact stepOK_if flow _ _ hthen (stepOK_of_eq flow _ (fun _ => rfl))

theorem stepOK_routerPhase (flow : Flow) (rcall : String → AncState → AncState)
    (node : String) (hrc : ∀ ln, StepOK flow (rcall ln)) :
    StepOK flow (dfsRouterPhase flow rcall node) := by
  unfold dfsRouterPhase
  apply stepOK_if
  · apply stepOK_foldl
    intro path _
    apply stepOK_foldl
    intro e _
    have hupd : StepOK flow (fun s => ancUpdRouter s node e.1) :=
      stepOK_of_ancLE_visited flow _ (fun s => ancLE_updRouter s node e.1)
        (fun s => rfl)
    have hthen : StepOK flow (fun s => rcall e.1 (ancUpdRouter s node e.1)) :=
      stepOK_comp flow _ _ hupd (hrc e.1)
    exact stepOK_if flow _ _ hthen (stepOK_of_eq flow _ (fun _ => rfl))
  · exact stepOK_of_eq flow _ (fun _ => rfl)

/-- After the listener loop for `node`, `node` is in the ancestor set of
every listener whose trigger set contains it. -/
theorem listenPhase_edges (flow : Flow) (rcall : String → AncState → AncState)
    (node : String) (hrc : ∀ ln, StepOK flow (rcall ln)) :
    ∀ (ls : List (String × CondType × List String)) (s : AncState),
      ∀ e ∈ ls, node ∈ e.2.2 →
        node ∈ ancD (ls.foldl
          (fun t e' =>
            if node ∈ e'.2.2 then rcall e'.1 (ancUpdListen t node e'.1) else t)
          s) e.1 := by
  intro ls
  induction ls with
  | nil => intro s e he; cases he
  | cons e' rest ih =>
    intro s e he hne
    rcases List.mem_cons.1 he with he1 | he1
    · subst he1
      rw [List.foldl_cons, if_pos hne]
      have hbase : node ∈ ancD (ancUpdListen s node e.1) e.1 := by
        rw [mem_ancD_updListen]
        exact Or.inr ⟨rfl, Or.inl rfl⟩
      have hrec : node ∈ ancD (rcall e.1 (ancUpdListen s node e.1)) e.1 :=
        ((hrc e.1 (ancUpdListen s node e.1)).1).1 _ _ hbase
      have hfold := stepOK_foldl flow
        (fun t e' =>
          if node ∈ e'.2.2 then rcall e'.1 (ancUpdListen t node e'.1) else t)
        rest (fun b _ => by
          have hupd : StepOK flow (fun s => ancUpdListen s node b.1) :=
            stepOK_of_ancLE_visited flow _ (fun s => ancLE_updListen s node b.1)
              (fun s => rfl)
          exact stepOK_if flow _ _ (stepOK_comp flow _ _ hupd (hrc b.1))
            (stepOK_of_eq flow _ (fun _ => rfl)))
      exact ((hfold (rcall e.1 (ancUpdListen s node e.1))).1).1 _ _ hrec
    · rw [List.foldl_cons]
      exact ih _ e he1 hne

/-- `dfs_ancestors` only grows the state, and every name it newly marks
visited receives all of its direct trigger edges. -/
theorem dfs_stepOK (flow : Flow) :
    ∀ fuel node, StepOK flow (dfs_ancestors flow fuel node) := by
  intro fuel
  induction fuel with
  | zero =>
    intro node
    exact stepOK_of_eq flow _ (fun s => rfl)
  | succ fuel ih =>
    intro node s
    by_cases hv : node ∈ s.visited
    · rw [show dfs_ancestors flow (fuel + 1) node s = s by
        simp [dfs_ancestors, hv]]
      exact ⟨AncLE.refl s, fun w hw hw' => absurd hw hw'⟩
    · have hred : dfs_ancestors flow (fuel + 1) node s
          = dfsRouterPhase flow (dfs_ancestors flow fuel) node
              (dfsListenPhase flow (dfs_ancestors flow fuel) node
                { s with visited := setInsert node s.visited }) := by
        simp [dfs_ancestors, hv]
      set s1 : AncState := { s with visited := setInsert node s.visited } with hs1
      have hmark : AncLE s s1 := by
        refine ⟨fun n x h => h, fun x h => ?_⟩
        rw [hs1]
        simp only [mem_setInsert]
        exact Or.inr h
      have hL := stepOK_listenPhase flow (dfs_ancestors flow fuel) node ih
      have hR := stepOK_routerPhase flow (dfs_ancestors flow fuel) node ih
      rw [hred]
      constructor
      · exact (hmark.trans (hL s1).1).trans
          (hR (dfsListenPhase flow (dfs_ancestors flow fuel) node s1)).1
      · intro w hw hw' e he hwe
        by_cases hwn : w = node
        · subst hwn
          have hedge : w ∈ ancD
              (dfsListenPhase flow (dfs_ancestors flow fuel) w s1) e.1 :=
            listenPhase_edges flow (dfs_ancestors flow fuel) w ih
              flow.listeners s1 e he hwe
          exact ((hR _).1).1 _ _ hedge
        · have hw1 : w ∉ s1.visited := by
            rw [hs1]
            simp only [mem_setInsert]
            rintro (h | h)
            · exact hwn h
            · exact hw' h
          have hcomp := stepOK_comp flow
            (dfsListenPhase flow (dfs_ancestors flow fuel) node)
            (dfsRouterPhase flow (dfs_ancestors flow fuel) node) hL hR
          exact (hcomp s1).2 w hw hw1 e he hwe

/-- With positive fuel, `dfs_ancestors` marks its argument visited. -/
theorem dfs_marks (flow : Flow) (fuel : Nat) (node : String) (st : AncState)
    (hf : 0 < fuel) : node ∈ (dfs_ancestors flow fuel node st).visited := by
  match fuel, hf with
  | fuel + 1, _ =>
    by_cases hv : node ∈ st.visited
    · rw [show dfs_ancestors flow (fuel + 1) node st = st by
        simp [dfs_ancestors, hv]]
      exact hv
    · have hred : dfs_ancestors flow (fuel + 1) node st
          = dfsRouterPhase flow (dfs_ancestors flow fuel) node
              (dfsListenPhase flow (dfs_ancestors flow fuel) node
                { st with visited := setInsert node st.visited }) := by
        simp [dfs_ancestors, hv]
      rw [hred]
      have h1 : node ∈ (AncState.mk st.anc (setInsert node st.visited)).visited := by
        simp [mem_setInsert]
      have hL := stepOK_listenPhase flow (dfs_ancestors flow fuel) node
        (dfs_stepOK flow fuel)
      have hR := stepOK_routerPhase flow (dfs_ancestors flow fuel) node
        (dfs_stepOK flow fuel)
      exact ((hR _).1).2 _ (((hL _).1).2 _ h1)

/-- One step of the top-level loop of `build_ancestor_dict`. -/
def ancTopStep (flow : Flow) (st : AncState) (m : String × Bool) : AncState :=
  if m.1 ∈ st.visited then st else dfs_ancestors flow (ancFuel flow) m.1 st

theorem build_ancestor_dict_eq (flow : Flow) :
    build_ancestor_dict flow
      = (flow.methods.foldl (ancTopStep flow)
          { anc := flow.methods.map (fun m => (m.1, [])), visited := [] }).anc := rfl

theorem stepOK_ancTopStep (flow : Flow) (m : String × Bool) :
    StepOK flow (fun st => ancTopStep flow st m) := by
  intro st
  show AncLE st (ancTopStep flow st m) ∧
    ∀ w, w ∈ (ancTopStep flow st m).visited → w ∉ st.visited →
      ∀ e ∈ flow.listeners, w ∈ e.2.2 → w ∈ ancD (ancTopStep flow st m) e.1
  by_cases hv : m.1 ∈ st.visited
  · rw [show ancTopStep flow st m = st from if_pos hv]
    exact ⟨AncLE.refl st, fun w hw hw' => absurd hw hw'⟩
  · rw [show ancTopStep flow st m
      = dfs_ancestors flow (ancFuel flow) m.1 st from if_neg hv]
    exact dfs_stepOK flow (ancFuel flow) m.1 st

/-- After the top-level loop, every method name has been visited. -/
theorem topfold_visits (flow : Flow) :
    ∀ (ms : List (String × Bool)) (st : AncState), ∀ m ∈ ms,
      m.1 ∈ (ms.foldl (ancTopStep flow) st).visited := by
  intro ms
  induction ms with
  | nil => intro st m hm; cases hm
  | cons m' rest ih =>
    intro st m hm
    rw [List.foldl_cons]
    rcases List.mem_cons.1 hm with hm1 | hm1
    · subst hm1
      have hstep : m.1 ∈ (ancTopStep flow st m).visited := by
        unfold ancTopStep
        by_cases hv : m.1 ∈ st.visited
        · rw [if_pos hv]; exact hv
        · rw [if_neg hv]
          exact dfs_marks flow (ancFuel flow) m.1 st (by
            unfold ancFuel; omega)
      exact ((stepOK_foldl flow (ancTopStep flow) rest
        (fun b _ => stepOK_ancTopStep flow b) (ancTopStep flow st m)).1).2 _ hstep
    · exact ih _ m hm1

/-- Direct trigger containment: every method that triggers a listener ends up
in that listener's ancestor set, whatever the visit order. -/
theorem build_ancestor_direct (flow : Flow)
    (e : String × CondType × List String) (he : e ∈ flow.listeners)
    (u : String) (hu : u ∈ methodNames flow) (hue : u ∈ e.2.2) :
    u ∈ (alookup (build_ancestor_dict flow) e.1).getD [] := by
  obtain ⟨m, hm, hm1⟩ := List.mem_map.1 hu
  have hfold := stepOK_foldl flow (ancTopStep flow) flow.methods
    (fun b _ => stepOK_ancTopStep flow b)
  set init : AncState :=
    { anc := flow.methods.map (fun m => (m.1, [])), visited := [] } with hinit
  have hvis : u ∈ (flow.methods.foldl (ancTopStep flow) init).visited := by
    rw [← hm1]
    exact topfold_visits flow flow.methods init m hm
  have hnf : u ∉ init.visited := by rw [hinit]; exact List.not_mem_nil u
  have := (hfold init).2 u hvis hnf e he hue
  rw [build_ancestor_dict_eq]
  exact this

/-- C3 (amended): for every graph whose listener names are methods (otherwise
the Python code raises `KeyError`), the ancestor map of `build_ancestor_dict`
contains every direct trigger dependency — whenever a method `u` is among a
listener's triggers, `u` is in that listener's ancestor set — but, contrary
to the original claim, the map is not transitively closed for every visit
order (see the counterexample, where `A ∈ anc(B)` and `B ∈ anc(C)` but
`A ∉ anc(C)`). -/
theorem claim_C3 (flow : Flow)
    (hLM : ∀ e ∈ flow.listeners, e.1 ∈ methodNames flow) :
    ∀ e ∈ flow.listeners, ∀ u, u ∈ methodNames flow → u ∈ e.2.2 →
      u ∈ (alookup (build_ancestor_dict flow) e.1).getD [] :=
  fun e he u hu hue => build_ancestor_direct flow e he u hu hue

/-- The three-step chain refuting transitive closure: the top-level loop
visits `C`, then `B` (whose dfs adds `B` to `anc(C)` while `anc(B)` is still
empty), then `A` (which adds `A` to `anc(B)`, but the recursion into `B`
short-circuits on the visited set, so `C` never receives `A`). -/
def flowC3 : Flow :=
  { methods := [("C", false), ("B", false), ("A", true)],
    listeners := [("B", CondType.OR, ["A"]), ("C", CondType.OR, ["B"])],
    routers := [], routerPaths := [] }

/-- C3 counterexample: the ancestor map computed for `flowC3` is not
transitively closed: `A ∈ anc(B)` and `B ∈ anc(C)`, yet `A ∉ anc(C)`. -/
theorem claim_C3_counterexample :
    "A" ∈ (alookup (build_ancestor_dict flowC3) "B").getD []
    ∧ "B" ∈ (alookup (build_ancestor_dict flowC3) "C").getD []
    ∧ "A" ∉ (alookup (build_ancestor_dict flowC3) "C").getD [] := by decide

theorem claim_C3_witness :
    "A" ∈ (alookup (build_ancestor_dict flowC3) "B").getD [] :=
  claim_C3 flowC3 (by decide) ("B", CondType.OR, ["A"]) (by decide) "A"
    (by decide) (by decide)

/-- Everything stored in the ancestor sets satisfies `φ`. -/
def ElemOK (φ : String → Prop) (st : AncState) : Prop :=
  ∀ n x, x ∈ ancD st n → φ x

theorem elemOK_updListen {φ : String → Prop} (s : AncState) (node ln : String)
    (hn : φ node) (h : ElemOK φ s) : ElemOK φ (ancUpdListen s node ln) := by
  intro n x hx
  rw [mem_ancD_updListen] at hx
  rcases hx with hx | ⟨_, hx | hx⟩
  · exact h n x hx
  · exact hx ▸ hn
  · exact h node x hx

theorem elemOK_updRouter {φ : String → Prop} (s : AncState) (node ln : String)
    (h : ElemOK φ s) : ElemOK φ (ancUpdRouter s node ln) := by
  intro n x hx
  rw [mem_ancD_updRouter] at hx
  rcases hx with hx | ⟨_, hx⟩
  · exact h n x hx
  · exact h node x hx

theorem elemOK_foldl {β : Type} {φ : String → Prop}
    (g : AncState → β → AncState) (l : List β)
    (h : ∀ b ∈ l, ∀ s, ElemOK φ s → ElemOK φ (g s b)) :
    ∀ s, ElemOK φ s → ElemOK φ (l.foldl g s) := by
  induction l with
  | nil => intro s hs; exact hs
  | cons b t ih =>
    intro s hs
    rw [List.foldl_cons]
    exact ih (fun b' hb' => h b' (List.mem_cons_of_mem b hb'))
      _ (h b (List.mem_cons_self b t) s hs)

/-- Element provenance of `dfs_ancestors`: if every dfs argument satisfies
`ψ`, `ψ`-names occurring in a trigger set satisfy `φ`, and listener names
satisfy `ψ`, then `dfs_ancestors` only ever inserts `φ`-elements. -/
theorem dfs_elemOK (flow : Flow) (φ ψ : String → Prop)
    (hψl : ∀ e ∈ flow.listeners, ψ e.1)
    (himp : ∀ n, ψ n → ∀ e ∈ flow.listeners, n ∈ e.2.2 → φ n) :
    ∀ fuel node st, ψ node → ElemOK φ st →
      ElemOK φ (dfs_ancestors flow fuel node st) := by
  intro fuel
  induction fuel with
  | zero => intro node st _ hst; exact hst
  | succ fuel ih =>
    intro node st hψn hst
    by_cases hv : node ∈ st.visited
    · rw [show dfs_ancestors flow (fuel + 1) node st = st by
        simp [dfs_ancestors, hv]]
      exact hst
    · rw [show dfs_ancestors flow (fuel + 1) node st
          = dfsRouterPhase flow (dfs_ancestors flow fuel) node
              (dfsListenPhase flow (dfs_ancestors flow fuel) node
                { st with visited := setInsert node st.visited }) by
        simp [dfs_ancestors, hv]]
      have hst1 : ElemOK φ { st with visited := setInsert node st.visited } := by
        intro n x hx; exact hst n x hx
      have hL : ∀ (ls : List (String × CondType × List String)),
          (∀ e ∈ ls, e ∈ flow.listeners) → ∀ s, ElemOK φ s →
          ElemOK φ (ls.foldl
            (fun t e => if node ∈ e.2.2 then
              dfs_ancestors flow fuel e.1 (ancUpdListen t node e.1) else t) s) := by
        intro ls hls
        apply elemOK_foldl
        intro e he s hs
        by_cases hg : node ∈ e.2.2
        · rw [if_pos hg]
          exact ih e.1 _ (hψl e (hls e he))
            (elemOK_updListen s node e.1
              (himp node hψn e (hls e he) hg) hs)
        · rw [if_neg hg]; exact hs
      have hstep2 := hL flow.listeners (fun e he => he) _ hst1
      show ElemOK φ (dfsRouterPhase flow (dfs_ancestors flow fuel) node _)
      unfold dfsRouterPhase
      by_cases hr : node ∈ flow.routers
      · rw [if_pos hr]
        apply elemOK_foldl
        · intro path _ s hs
          apply elemOK_foldl
          · intro e he s' hs'
            by_cases hg : path ∈ e.2.2
            · rw [if_pos hg]
              exact ih e.1 _ (hψl e he) (elemOK_updRouter s' node e.1 hs')
            · rw [if_neg hg]; exact hs'
          · exact hs
        · exact hstep2
      · rw [if_neg hr]
        exact hstep2

/-- Element provenance of the whole ancestor computation. -/
theorem build_ancestor_elemOK (flow : Flow) (φ ψ : String → Prop)
    (hψl : ∀ e ∈ flow.listeners, ψ e.1)
    (hψm : ∀ m ∈ flow.methods, ψ m.1)
    (himp : ∀ n, ψ n → ∀ e ∈ flow.listeners, n ∈ e.2.2 → φ n) :
    ∀ n x, x ∈ (alookup (build_ancestor_dict flow) n).getD [] → φ x := by
  have hinit : ElemOK φ
      { anc := flow.methods.map (fun m => (m.1, [])), visited := [] } := by
    intro n x hx
    unfold ancD at hx
    cases hal : alookup
        (AncState.mk (flow.methods.map (fun m => (m.1, []))) []).anc n with
    | none => rw [hal] at hx; cases hx
    | some v =>
      rw [hal] at hx
      have hv := mem_of_alookup_eq_some hal
      obtain ⟨m, _, hm2⟩ := List.mem_map.1 hv
      have : v = [] := ((Prod.mk.injEq .. ▸ hm2).2).symm
      rw [this] at hx
      cases hx
  have hfold : ∀ (ms : List (String × Bool)), (∀ m ∈ ms, m ∈ flow.methods) →
      ∀ st, ElemOK φ st → ElemOK φ (ms.foldl (ancTopStep flow) st) := by
    intro ms hms
    apply elemOK_foldl
    intro m hm st hst
    show ElemOK φ (ancTopStep flow st m)
    unfold ancTopStep
    by_cases hv : m.1 ∈ st.visited
    · rw [if_pos hv]; exact hst
    · rw [if_neg hv]
      exact dfs_elemOK flow φ ψ hψl himp (ancFuel flow) m.1 st
        (hψm m (hms m hm)) hst
  intro n x hx
  have := hfold flow.methods (fun m hm => hm) _ hinit
  rw [build_ancestor_dict_eq] at hx
  exact this n x hx

/-- C4: for every graph and every router whose name appears in no listener's
trigger set (i.e. every listener it reaches, it reaches via its declared path
labels), the router's own name never appears in any ancestor set computed by
`build_ancestor_dict`: the router block (line 184) only unions the router's
own ancestor set into the listeners of its paths, never the router's name. -/
theorem claim_C4 (flow : Flow) (R : String) (hR : R ∈ flow.routers)
    (hnt : ∀ e ∈ flow.listeners, R ∉ e.2.2) :
    ∀ n, R ∉ (alookup (build_ancestor_dict flow) n).getD [] := by
  intro n hmem
  have hprov := build_ancestor_elemOK flow
    (fun x => ∃ e ∈ flow.listeners, x ∈ e.2.2) (fun _ => True)
    (fun _ _ => trivial) (fun _ _ => trivial)
    (fun n' _ e he hne => ⟨e, he, hne⟩) n R hmem
  obtain ⟨e, he, hxe⟩ := hprov
  exact hnt e he hxe

/-- A router `R` reaching `L` only through its path `p`. -/
def flowC4 : Flow :=
  { methods := [("R", true), ("L", false)],
    listeners := [("L", CondType.OR, ["p"])],
    routers := ["R"], routerPaths := [("R", ["p"])] }

theorem claim_C4_witness :
    "R" ∉ (alookup (build_ancestor_dict flowC4) "L").getD [] :=
  claim_C4 flowC4 "R" (by decide) (by decide) "L"

/-! ### Child Indexer construction (`build_parent_children_dict`) -/

/-- `x` is recorded as a child of `k` in a parent-children dictionary. -/
def pcMem (pc : List (String × List String)) (k x : String) : Prop :=
  ∃ l, alookup pc k = some l ∧ x ∈ l

theorem mem_appendNew (l : List String) (x y : String) :
    y ∈ appendNew l x ↔ y ∈ l ∨ y = x := by
  unfold appendNew
  by_cases h : x ∈ l
  · rw [if_pos h]
    constructor
    · exact Or.inl
    · rintro (hy | hy)
      · exact hy
      · exact hy ▸ h
  · rw [if_neg h]
    simp

/-- The `parent_children[k'].append` idiom never loses a recorded child. -/
theorem pcMem_mono_step (pc : List (String × List String)) (k' y : String) :
    ∀ k x, pcMem pc k x →
      pcMem (aset pc k' (appendNew ((alookup pc k').getD []) y)) k x := by
  rintro k x ⟨l, hl, hx⟩
  by_cases hk : k' = k
  · subst hk
    refine ⟨appendNew ((alookup pc k').getD []) y, alookup_aset_self .., ?_⟩
    rw [hl, mem_appendNew]
    exact Or.inl (by simpa using hx)
  · exact ⟨l, by rw [alookup_aset_ne _ _ _ _ hk]; exact hl, hx⟩

theorem pcMem_aset_self (pc : List (String × List String)) (k y : String) :
    pcMem (aset pc k (appendNew ((alookup pc k).getD []) y)) k y :=
  ⟨_, alookup_aset_self .., by rw [mem_appendNew]; exact Or.inr rfl⟩

theorem trigfold_pres (ln : String) :
    ∀ (ts : List String) (pc : List (String × List String)) (k x : String),
      pcMem pc k x →
      pcMem (ts.foldl
        (fun pc trigger =>
          aset pc trigger (appendNew ((alookup pc trigger).getD []) ln)) pc)
        k x := by
  intro ts
  induction ts with
  | nil => intro pc k x h; exact h
  | cons t rest ih =>
    intro pc k x h
    rw [List.foldl_cons]
    exact ih _ k x (pcMem_mono_step pc t ln k x h)

theorem trigfold_estab (ln : String) :
    ∀ (ts : List String) (pc : List (String × List String)) (T : String),
      T ∈ ts →
      pcMem (ts.foldl
        (fun pc trigger =>
          aset pc trigger (appendNew ((alookup pc trigger).getD []) ln)) pc)
        T ln := by
  intro ts
  induction ts with
  | nil => intro pc T h; cases h
  | cons t rest ih =>
    intro pc T h
    rw [List.foldl_cons]
    rcases List.mem_cons.1 h with h1 | h1
    · subst h1
      exact trigfold_pres ln rest _ T ln (pcMem_aset_self pc T ln)
    · exact ih _ T h1

/-- Splitting `build_parent_children_dict` into its two loops. -/
def bpcListenerLoop (flow : Flow) : List (String × List String) :=
  flow.listeners.foldl
    (fun pc e => e.2.2.foldl
      (fun pc trigger =>
        aset pc trigger (appendNew ((alookup pc trigger).getD []) e.1)) pc)
    []

theorem build_parent_children_dict_eq (flow : Flow) :
    build_parent_children_dict flow
      = flow.routerPaths.foldl
          (fun pc rp => rp.2.foldl
            (fun pc path => flow.listeners.foldl
              (fun pc e =>
                if path ∈ e.2.2 then
                  aset pc rp.1 (appendNew ((alookup pc rp.1).getD []) e.1)
                else pc) pc) pc)
          (bpcListenerLoop flow) := rfl

theorem listfold_pres :
    ∀ (ls : List (String × CondType × List String))
      (pc : List (String × List String)) (k x : String),
      pcMem pc k x →
      pcMem (ls.foldl
        (fun pc e => e.2.2.foldl
          (fun pc trigger =>
            aset pc trigger (appendNew ((alookup pc trigger).getD []) e.1)) pc)
        pc) k x := by
  intro ls
  induction ls with
  | nil => intro pc k x h; exact h
  | cons e rest ih =>
    intro pc k x h
    rw [List.foldl_cons]
    exact ih _ k x (trigfold_pres e.1 e.2.2 pc k x h)

theorem bpcListenerLoop_estab (flow : Flow)
    (e0 : String × CondType × List String) (he0 : e0 ∈ flow.listeners)
    (T : String) (hT : T ∈ e0.2.2) : pcMem (bpcListenerLoop flow) T e0.1 := by
  unfold bpcListenerLoop
  have main : ∀ (ls : List (String × CondType × List String))
      (pc : List (String × List String)), e0 ∈ ls →
      pcMem (ls.foldl
        (fun pc e => e.2.2.foldl
          (fun pc trigger =>
            aset pc trigger (appendNew ((alookup pc trigger).getD []) e.1)) pc)
        pc) T e0.1 := by
    intro ls
    induction ls with
    | nil => intro pc h; cases h
    | cons e' rest ih =>
      intro pc h
      rw [List.foldl_cons]
      rcases List.mem_cons.1 h with h1 | h1
      · subst h1
        exact listfold_pres rest _ T e0.1 (trigfold_estab e0.1 e0.2.2 pc T hT)
      · exact ih _ h1
  exact main flow.listeners [] he0

theorem bpc_trigger_entry (flow : Flow)
    (e0 : String × CondType × List String) (he0 : e0 ∈ flow.listeners)
    (T : String) (hT : T ∈ e0.2.2) :
    pcMem (build_parent_children_dict flow) T e0.1 := by
  rw [build_parent_children_dict_eq]
  have base := bpcListenerLoop_estab flow e0 he0 T hT
  have pres : ∀ (rps : List (String × List String)) pc,
      pcMem pc T e0.1 →
      pcMem (rps.foldl
        (fun pc rp => rp.2.foldl
          (fun pc path => flow.listeners.foldl
            (fun pc e =>
              if path ∈ e.2.2 then
                aset pc rp.1 (appendNew ((alookup pc rp.1).getD []) e.1)
              else pc) pc) pc)
        pc) T e0.1 := by
    intro rps
    induction rps with
    | nil => intro pc h; exact h
    | cons rp rest ih =>
      intro pc h
      rw [List.foldl_cons]
      apply ih
      clear ih
      induction rp.2 generalizing pc with
      | nil => exact h
      | cons p ps ihp =>
        rw [List.foldl_cons]
        apply ihp
        clear ihp
        induction flow.listeners generalizing pc with
        | nil => exact h
        | cons e es ihe =>
          rw [List.foldl_cons]
          apply ihe
          by_cases hg : p ∈ e.2.2
          · rw [if_pos hg]
            exact pcMem_mono_step pc rp.1 e.1 T e0.1 h
          · rw [if_neg hg]
            exact h
  exact pres flow.routerPaths _ base

/-! ### Level Assigner (`calculate_node_levels`) -/

/-- The loop state of `calculate_node_levels`: the `levels` dictionary, the
FIFO `queue`, the `visited` set and the `pending_and_listeners` table. -/
structure LState where
  levels : List (String × Nat)
  queue : List String
  visited : List String
  pending : List (String × List String)
deriving DecidableEq

/-- `levels[n]`, with a default that is never exercised where the Python code
reads it (the run invariant shows each dequeued name is assigned). -/
def lvlD (st : LState) (n : String) : Nat := (alookup st.levels n).getD 0

/-- `n in levels`. -/
def assigned (st : LState) (n : String) : Prop := alookup st.levels n ≠ none

/-- `pending_and_listeners[ln]` as a set (`[]` when the entry is absent). -/
def pendD (st : LState) (ln : String) : List String :=
  (alookup st.pending ln).getD []

/-- `listener_name not in levels or levels[listener_name] > current_level + 1`
with `nl = current_level + 1`. -/
def shouldUpdate (cur : Option Nat) (nl : Nat) : Bool :=
  match cur with
  | none => true
  | some v => nl < v

/-- The shared propose/update/enqueue block (lines 101-107, 113-120 and
131-138): set the improved level and enqueue the listener unless visited. -/
def propose (ln : String) (nl : Nat) (st : LState) : LState :=
  if shouldUpdate (alookup st.levels ln) nl = true then
    { st with
      levels := aset st.levels ln nl,
      queue := if ln ∈ st.visited then st.queue else st.queue ++ [ln] }
  else st

/-- Python `set(trigger_methods) == pending_and_listeners[listener_name]`. -/
def sameSet (a b : List String) : Prop := (∀ x ∈ a, x ∈ b) ∧ (∀ x ∈ b, x ∈ a)

instance (a b : List String) : Decidable (sameSet a b) :=
  inferInstanceAs (Decidable (_ ∧ _))

/-- The accumulator of an AND-listener after the current dequeue recorded
`current` (lines 109-112): the previous accumulator, extended with `current`
when `current` is one of the triggers. -/
def andPend (current : String) (st : LState) (ln : String)
    (tm : List String) : List String :=
  if current ∈ tm then setInsert current (pendD st ln) else pendD st ln

/-- Store a pending accumulator (`pending_and_listeners[ln] = p`). -/
def pendSet (st : LState) (ln : String) (p : List String) : LState :=
  { st with pending := aset st.pending ln p }

/-- Lines 98-120: processing of one `(listener_name, (condition_type,
trigger_methods))` entry for the dequeued `current` at level `cl`.  The AND
branch first materialises the pending entry, records `current` when it is a
trigger, and applies the propose block whenever the accumulator equals the
full trigger set. -/
def procListener (current : String) (cl : Nat) (st : LState)
    (e : String × CondType × List String) : LState :=
  match e with
  | (ln, CondType.OR, tm) =>
      if current ∈ tm then propose ln (cl + 1) st else st
  | (ln, CondType.AND, tm) =>
      if sameSet tm (andPend current st ln tm) then
        propose ln (cl + 1) (pendSet st ln (andPend current st ln tm))
      else pendSet st ln (andPend current st ln tm)

/-- The `for listener_name, (condition_type, trigger_methods) in
flow._listeners.items()` loop. -/
def listenerPhase (flow : Flow) (current : String) (cl : Nat) (st : LState) :
    LState :=
  flow.listeners.foldl (procListener current cl) st

/-- Lines 122-138, `# Handle router connections`: when `current` is a router,
every listener triggered by one of its path labels gets the same propose
block, regardless of its condition type. -/
def routerPhase (flow : Flow) (current : String) (cl : Nat) (st : LState) :
    LState :=
  if current ∈ flow.routers then
    (pathsD flow current).foldl
      (fun st path => flow.listeners.foldl
        (fun st e => if path ∈ e.2.2 then propose e.1 (cl + 1) st else st) st)
      st
  else st

/-- One iteration of the `while queue:` loop body, after
`current = queue.pop(0)` has already removed `current` from the queue. -/
def bfsStep (flow : Flow) (st : LState) (current : String) : LState :=
  routerPhase flow current (lvlD st current)
    (listenerPhase flow current (lvlD st current)
      { st with visited := setInsert current st.visited })

/-- The `while queue:` loop, with fuel; the fuel provided by
`calculate_node_levels` is proved sufficient to drain the queue. -/
def bfsRun (flow : Flow) : Nat → LState → LState
  | 0, st => st
  | n + 1, st =>
    match st.queue with
    | [] => st
    | current :: rest =>
        bfsRun flow n (bfsStep flow { st with queue := rest } current)

/-- Lines 86-90: all start methods are assigned level 0 and seed the queue. -/
def initState (flow : Flow) : LState :=
  { levels := flow.methods.foldl
      (fun acc m => if m.2 then aset acc m.1 0 else acc) [],
    queue := flow.methods.foldl
      (fun acc m => if m.2 then acc ++ [m.1] else acc) [],
    visited := [], pending := [] }

/-- Iterations available to the loop: every name is enqueued at most once, so
`|methods| + |listeners| + 1` iterations drain the queue. -/
def levelsFuel (flow : Flow) : Nat :=
  flow.methods.length + flow.listeners.length + 1

/-- The state in which the `while` loop of `calculate_node_levels` ends. -/
def bfsFinal (flow : Flow) : LState := bfsRun flow (levelsFuel flow) (initState flow)

/-- `calculate_node_levels(flow)`. -/
def calculate_node_levels (flow : Flow) : List (String × Nat) :=
  (bfsFinal flow).levels

/-- Fold preservation of a state predicate. -/
theorem lfoldl_pres {β : Type} (P : LState → Prop) (g : LState → β → LState)
    (l : List β) (h : ∀ b ∈ l, ∀ s, P s → P (g s b)) :
    ∀ s, P s → P (l.foldl g s) := by
  induction l with
  | nil => intro s hs; exact hs
  | cons b t ih =>
    intro s hs
    rw [List.foldl_cons]
    exact ih (fun b' hb' => h b' (List.mem_cons_of_mem b hb')) _
      (h b (List.mem_cons_self b t) s hs)

theorem propose_levels_zero (ln : String) (nl : Nat) (st : LState) (x : String)
    (h : alookup st.levels x = some 0) :
    alookup (propose ln nl st).levels x = some 0 := by
  unfold propose
  by_cases hs : shouldUpdate (alookup st.levels ln) nl = true
  · rw [if_pos hs]
    by_cases hx : ln = x
    · subst hx
      rw [h] at hs
      simp [shouldUpdate] at hs
    · show alookup (aset st.levels ln nl) x = some 0
      rw [alookup_aset_ne _ _ _ _ hx]
      exact h
  · rw [if_neg hs]
    exact h

theorem procListener_levels_zero (current : String) (cl : Nat) (st : LState)
    (e : String × CondType × List String) (x : String)
    (h : alookup st.levels x = some 0) :
    alookup (procListener current cl st e).levels x = some 0 := by
  obtain ⟨ln, ct, tm⟩ := e
  cases ct with
  | OR =>
    show alookup
      (if current ∈ tm then propose ln (cl + 1) st else st).levels x = some 0
    by_cases hg : current ∈ tm
    · rw [if_pos hg]
      exact propose_levels_zero ln (cl + 1) st x h
    · rw [if_neg hg]
      exact h
  | AND =>
    show alookup
      (if sameSet tm (andPend current st ln tm) then
        propose ln (cl + 1) (pendSet st ln (andPend current st ln tm))
      else pendSet st ln (andPend current st ln tm)).levels x = some 0
    by_cases hg : sameSet tm (andPend current st ln tm)
    · rw [if_pos hg]
      exact propose_levels_zero ln (cl + 1) _ x h
    · rw [if_neg hg]
      exact h

theorem bfsStep_levels_zero (flow : Flow) (st : LState) (current x : String)
    (h : alookup st.levels x = some 0) :
    alookup (bfsStep flow st current).levels x = some 0 := by
  unfold bfsStep
  have h1 : alookup
      (listenerPhase flow current (lvlD st current)
        { st with visited := setInsert current st.visited }).levels x
      = some 0 := by
    unfold listenerPhase
    exact lfoldl_pres (fun s => alookup s.levels x = some 0)
      (procListener current (lvlD st current)) flow.listeners
      (fun e _ s hs => procListener_levels_zero current (lvlD st current) s e x hs)
      _ h
  unfold routerPhase
  by_cases hr : current ∈ flow.routers
  · rw [if_pos hr]
    apply lfoldl_pres (fun s => alookup s.levels x = some 0)
    · intro path _ s hs
      apply lfoldl_pres (fun s => alookup s.levels x = some 0)
      · intro e _ s' hs'
        by_cases hg : path ∈ e.2.2
        · rw [if_pos hg]
          exact propose_levels_zero e.1 (lvlD st current + 1) s' x hs'
        · rw [if_neg hg]
          exact hs'
      · exact hs
    · exact h1
  · rw [if_neg hr]
    exact h1

theorem bfsRun_levels_zero (flow : Flow) :
    ∀ (n : Nat) (st : LState) (x : String),
      alookup st.levels x = some 0 →
      alookup (bfsRun flow n st).levels x = some 0 := by
  intro n
  induction n with
  | zero => intro st x h; exact h
  | succ n ih =>
    intro st x h
    show alookup (bfsRun flow (n + 1) st).levels x = some 0
    rw [show bfsRun flow (n + 1) st
        = (match st.queue with
           | [] => st
           | current :: rest =>
               bfsRun flow n (bfsStep flow { st with queue := rest } current))
        from rfl]
    cases hq : st.queue with
    | nil => exact h
    | cons current rest =>
      exact ih _ x (bfsStep_levels_zero flow { st with queue := rest } current x h)

theorem initState_levels_zero (flow : Flow) (x : String)
    (hx : ∃ m ∈ flow.methods, m.1 = x ∧ m.2 = true) :
    alookup (initState flow).levels x = some 0 := by
  show alookup (flow.methods.foldl
    (fun acc m => if m.2 then aset acc m.1 0 else acc) []) x = some 0
  have main : ∀ (ms : List (String × Bool)) (acc : List (String × Nat)),
      (alookup acc x = some 0 ∨ ∃ m ∈ ms, m.1 = x ∧ m.2 = true) →
      alookup (ms.foldl (fun acc m => if m.2 then aset acc m.1 0 else acc) acc) x
        = some 0 := by
    intro ms
    induction ms with
    | nil =>
      intro acc h
      rcases h with h | ⟨m, hm, _⟩
      · exact h
      · cases hm
    | cons m rest ih =>
      intro acc h
      rw [List.foldl_cons]
      rcases h with h | ⟨m', hm', hm'x, hm'f⟩
      · apply ih
        left
        by_cases hf : m.2
        · rw [if_pos hf]
          by_cases hmx : m.1 = x
          · subst hmx; exact alookup_aset_self ..
          · rw [alookup_aset_ne _ _ _ _ hmx]; exact h
        · rw [if_neg hf]; exact h
      · rcases List.mem_cons.1 hm' with he | he
        · subst he
          apply ih
          left
          rw [if_pos hm'f]
          subst hm'x
          exact alookup_aset_self ..
        · exact ih _ (Or.inr ⟨m', he, hm'x, hm'f⟩)
  exact main flow.methods [] (Or.inr hx)

theorem initState_queue (flow : Flow) :
    (initState flow).queue = (flow.methods.filter (fun m => m.2)).map (·.1) := by
  show flow.methods.foldl (fun acc m => if m.2 then acc ++ [m.1] else acc) []
    = (flow.methods.filter (fun m => m.2)).map (·.1)
  have main : ∀ (ms : List (String × Bool)) (acc : List String),
      ms.foldl (fun acc m => if m.2 then acc ++ [m.1] else acc) acc
        = acc ++ (ms.filter (fun m => m.2)).map (·.1) := by
    intro ms
    induction ms with
    | nil => intro acc; simp
    | cons m rest ih =>
      intro acc
      rw [List.foldl_cons, List.filter_cons]
      by_cases hf : m.2
      · rw [if_pos hf, ih, if_pos (by simp [hf])]
        simp
      · rw [if_neg hf, ih, if_neg (by simp [hf])]
  exact main flow.methods []

/-- C9: for every graph, every entry-point step is assigned level 0 by
`calculate_node_levels` (the seeding assigns 0 and no later update can lower
it, since updates require a strict improvement), and the entry points seed
the breadth-first frontier queue in method order. -/
theorem claim_C9 (flow : Flow) :
    ((initState flow).queue = (flow.methods.filter (fun m => m.2)).map (·.1))
    ∧ (∀ m ∈ flow.methods, m.2 = true →
        alookup (calculate_node_levels flow) m.1 = some 0) := by
  refine ⟨initState_queue flow, fun m hm hf => ?_⟩
  show alookup (bfsRun flow (levelsFuel flow) (initState flow)).levels m.1 = some 0
  exact bfsRun_levels_zero flow (levelsFuel flow) (initState flow) m.1
    (initState_levels_zero flow m.1 ⟨m, hm, rfl, hf⟩)

theorem mem_aset {α : Type} (l : List (String × α)) (k : String) (v : α) :
    ∀ p ∈ aset l k v, p = (k, v) ∨ p ∈ l := by
  induction l with
  | nil =>
    intro p hp
    rcases List.mem_singleton.1 hp with h
    exact Or.inl h
  | cons hd t ih =>
    intro p hp
    obtain ⟨k0, v0⟩ := hd
    by_cases hk : k0 = k
    · subst hk
      rw [show aset ((k0, v0) :: t) k0 v = (k0, v) :: t from by
        simp [aset]] at hp
      rcases List.mem_cons.1 hp with h | h
      · exact Or.inl h
      · exact Or.inr (List.mem_cons_of_mem _ h)
    · rw [show aset ((k0, v0) :: t) k v = (k0, v0) :: aset t k v from by
        simp [aset, hk]] at hp
      rcases List.mem_cons.1 hp with h | h
      · exact Or.inr (h ▸ List.mem_cons_self _ _)
      · rcases ih p h with h1 | h1
        · exact Or.inl h1
        · exact Or.inr (List.mem_cons_of_mem _ h1)

/-- Every key of the levels dictionary is a method or a listener name. -/
def LevelKeysOK (flow : Flow) (st : LState) : Prop :=
  ∀ p ∈ st.levels, p.1 ∈ methodNames flow ∨ p.1 ∈ listenerNames flow

theorem propose_keysOK (flow : Flow) (ln : String) (nl : Nat) (st : LState)
    (hln : ln ∈ listenerNames flow) (h : LevelKeysOK flow st) :
    LevelKeysOK flow (propose ln nl st) := by
  unfold propose
  by_cases hs : shouldUpdate (alookup st.levels ln) nl = true
  · rw [if_pos hs]
    intro p hp
    rcases mem_aset st.levels ln nl p hp with h1 | h1
    · rw [h1]
      exact Or.inr hln
    · exact h p h1
  · rw [if_neg hs]
    exact h

theorem procListener_keysOK (flow : Flow) (current : String) (cl : Nat)
    (st : LState) (e : String × CondType × List String)
    (he : e ∈ flow.listeners) (h : LevelKeysOK flow st) :
    LevelKeysOK flow (procListener current cl st e) := by
  have hln : e.1 ∈ listenerNames flow := List.mem_map_of_mem _ he
  obtain ⟨ln, ct, tm⟩ := e
  cases ct with
  | OR =>
    show LevelKeysOK flow (if current ∈ tm then propose ln (cl + 1) st else st)
    by_cases hg : current ∈ tm
    · rw [if_pos hg]
      exact propose_keysOK flow ln (cl + 1) st hln h
    · rw [if_neg hg]
      exact h
  | AND =>
    show LevelKeysOK flow
      (if sameSet tm (andPend current st ln tm) then
        propose ln (cl + 1) (pendSet st ln (andPend current st ln tm))
      else pendSet st ln (andPend current st ln tm))
    have hps : LevelKeysOK flow (pendSet st ln (andPend current st ln tm)) := by
      intro p hp
      exact h p hp
    by_cases hg : sameSet tm (andPend current st ln tm)
    · rw [if_pos hg]
      exact propose_keysOK flow ln (cl + 1) _ hln hps
    · rw [if_neg hg]
      exact hps

theorem bfsStep_keysOK (flow : Flow) (st : LState) (current : String)
    (h : LevelKeysOK flow st) : LevelKeysOK flow (bfsStep flow st current) := by
  unfold bfsStep
  have h1 : LevelKeysOK flow
      (listenerPhase flow current (lvlD st current)
        { st with visited := setInsert current st.visited }) := by
    unfold listenerPhase
    exact lfoldl_pres (LevelKeysOK flow)
      (procListener current (lvlD st current)) flow.listeners
      (fun e he s hs => procListener_keysOK flow current (lvlD st current) s e he hs)
      _ (fun p hp => h p hp)
  unfold routerPhase
  by_cases hr : current ∈ flow.routers
  · rw [if_pos hr]
    apply lfoldl_pres (LevelKeysOK flow)
    · intro path _ s hs
      apply lfoldl_pres (LevelKeysOK flow)
      · intro e he s' hs'
        by_cases hg : path ∈ e.2.2
        · rw [if_pos hg]
          exact propose_keysOK flow e.1 (lvlD st current + 1) s'
            (List.mem_map_of_mem _ he) hs'
        · rw [if_neg hg]
          exact hs'
      · exact hs
    · exact h1
  · rw [if_neg hr]
    exact h1

theorem bfsRun_keysOK (flow : Flow) :
    ∀ (n : Nat) (st : LState), LevelKeysOK flow st →
      LevelKeysOK flow (bfsRun flow n st) := by
  intro n
  induction n with
  | zero => intro st h; exact h
  | succ n ih =>
    intro st h
    show LevelKeysOK flow (bfsRun flow (n + 1) st)
    rw [show bfsRun flow (n + 1) st
        = (match st.queue with
           | [] => st
           | current :: rest =>
               bfsRun flow n (bfsStep flow { st with queue := rest } current))
        from rfl]
    cases hq : st.queue with
    | nil => exact h
    | cons current rest =>
      exact ih _ (bfsStep_keysOK flow { st with queue := rest } current
        (fun p hp => h p hp))

theorem initState_keysOK (flow : Flow) : LevelKeysOK flow (initState flow) := by
  show ∀ p ∈ flow.methods.foldl
    (fun acc m => if m.2 then aset acc m.1 0 else acc) [], _
  have main : ∀ (ms : List (String × Bool)) (acc : List (String × Nat)),
      (∀ m ∈ ms, m ∈ flow.methods) →
      (∀ p ∈ acc, p.1 ∈ methodNames flow ∨ p.1 ∈ listenerNames flow) →
      ∀ p ∈ ms.foldl (fun acc m => if m.2 then aset acc m.1 0 else acc) acc,
        p.1 ∈ methodNames flow ∨ p.1 ∈ listenerNames flow := by
    intro ms
    induction ms with
    | nil => intro acc _ hacc; exact hacc
    | cons m rest ih =>
      intro acc hms hacc
      rw [List.foldl_cons]
      apply ih
      · intro m' hm'; exact hms m' (List.mem_cons_of_mem m hm')
      · by_cases hf : m.2
        · rw [if_pos hf]
          intro p hp
          rcases mem_aset acc m.1 0 p hp with h1 | h1
          · rw [h1]
            exact Or.inl (List.mem_map_of_mem _ (hms m (List.mem_cons_self m rest)))
          · exact hacc p h1
        · rw [if_neg hf]
          exact hacc
  exact main flow.methods [] (fun m hm => hm) (fun p hp => absurd hp (List.not_mem_nil p))

/-- C5 (amended): a listener trigger naming no existing step, listener or
path is tolerated silently by `calculate_node_levels` (it never receives a
level — only methods and listener names do) and by `build_ancestor_dict` (it
never enters any ancestor set), and no error is raised (all functions are
total); but, contrary to the original claim, `build_parent_children_dict`
does give the unmatched trigger its own entry, listing the listeners that
declare it as a trigger. -/
theorem claim_C5 (flow : Flow) (e0 : String × CondType × List String)
    (he0 : e0 ∈ flow.listeners) (T : String) (hT : T ∈ e0.2.2)
    (hTm : T ∉ methodNames flow) (hTl : T ∉ listenerNames flow)
    (hTp : ∀ rp ∈ flow.routerPaths, T ∉ rp.2) :
    alookup (calculate_node_levels flow) T = none
    ∧ (∀ n, T ∉ (alookup (build_ancestor_dict flow) n).getD [])
    ∧ (∃ l, alookup (build_parent_children_dict flow) T = some l ∧ e0.1 ∈ l) := by
  refine ⟨?_, ?_, bpc_trigger_entry flow e0 he0 T hT⟩
  · cases hl : alookup (calculate_node_levels flow) T with
    | none => rfl
    | some v =>
      exfalso
      have hkeys : LevelKeysOK flow (bfsFinal flow) :=
        bfsRun_keysOK flow (levelsFuel flow) (initState flow)
          (initState_keysOK flow)
      have hp := mem_of_alookup_eq_some hl
      rcases hkeys (T, v) hp with h | h
      · exact hTm h
      · exact hTl h
  · intro n hmem
    have hprov := build_ancestor_elemOK flow
      (fun x => x ∈ methodNames flow ∨ x ∈ listenerNames flow)
      (fun x => x ∈ methodNames flow ∨ x ∈ listenerNames flow)
      (fun e he => Or.inr (List.mem_map_of_mem _ he))
      (fun m hm => Or.inl (List.mem_map_of_mem _ hm))
      (fun n' hn' _ _ _ => hn') n T hmem
    rcases hprov with h | h
    · exact hTm h
    · exact hTl h

/-- A listener whose trigger `"ghost"` names no step or path. -/
def flowC5 : Flow :=
  { methods := [("A", true)],
    listeners := [("L", CondType.OR, ["ghost"])],
    routers := [], routerPaths := [] }

/-- C5 counterexample: contrary to the claim, the unmatched trigger `"ghost"`
does produce an entry in the parent-children map, keyed by the trigger and
listing the listener. -/
theorem claim_C5_counterexample :
    alookup (build_parent_children_dict flowC5) "ghost" = some ["L"] := by
  decide

theorem claim_C5_witness :
    alookup (calculate_node_levels flowC5) "ghost" = none :=
  (claim_C5 flowC5 ("L", CondType.OR, ["ghost"]) (by decide) "ghost"
    (by decide) (by decide) (by decide) (by decide)).1

theorem claim_C9_witness :
    alookup (calculate_node_levels
      { methods := [("A", true), ("C", true), ("B", false), ("D", false)],
        listeners := [("B", CondType.OR, ["A"]),
          ("D", CondType.AND, ["B", "C"])],
        routers := [], routerPaths := [] }) "A" = some 0 :=
  (claim_C9
    { methods := [("A", true), ("C", true), ("B", false), ("D", false)],
      listeners := [("B", CondType.OR, ["A"]), ("D", CondType.AND, ["B", "C"])],
      routers := [], routerPaths := [] }).2 ("A", true) (by decide) rfl

/-- A router `R` (the only start) declaring path `"p"`, with an AND-listener
`L` whose trigger set is `{"p", "B"}`; the method `B` never fires. -/
def flowC2 : Flow :=
  { methods := [("R", true), ("B", false), ("L", false)],
    listeners := [("L", CondType.AND, ["p", "B"])],
    routers := ["R"], routerPaths := [("R", ["p"])] }

/-- C2 counterexample: the AND-listener `L` is assigned level 1 by
`calculate_node_levels` even though its trigger `B` never gets a level — the
router-path handling (lines 126-138) proposes to every listener whose trigger
set contains the path label, regardless of the AND condition. -/
theorem claim_C2_counterexample :
    ("L", CondType.AND, ["p", "B"]) ∈ flowC2.listeners
    ∧ alookup (calculate_node_levels flowC2) "L" = some 1
    ∧ alookup (calculate_node_levels flowC2) "B" = none := by decide

/-- C1 counterexample: the first loop iteration of `calculate_node_levels` on
`flowC2` dequeues the router `R`, which is not a member of the AND-listener
`L`'s trigger set, and whose dequeue leaves `L`'s satisfied-trigger
accumulator empty — a proper subset of `{"p", "B"}` — yet that dequeue
assigns `L` the level 1 through the router-path handling. -/
theorem claim_C1_counterexample :
    (initState flowC2).queue = ["R"]
    ∧ bfsRun flowC2 1 (initState flowC2)
        = bfsStep flowC2 { initState flowC2 with queue := [] } "R"
    ∧ ("L", CondType.AND, ["p", "B"]) ∈ flowC2.listeners
    ∧ "R" ∉ ["p", "B"]
    ∧ alookup (initState flowC2).levels "L" = none
    ∧ alookup (bfsRun flowC2 1 (initState flowC2)).levels "L" = some 1
    ∧ pendD (bfsRun flowC2 1 (initState flowC2)) "L" = [] := by decide

/-! #### Effect of a single dequeue

The lemmas below characterise, entry by entry, what one loop iteration does
to the state, and are the backbone of the run invariant. -/

/-- The listener-loop condition under which the propose block applies to
entry `e` at the dequeue of `current`: an OR-listener triggered by `current`,
or an AND-listener whose accumulator, after recording `current`, equals its
full trigger set. -/
def entryMatch (current : String) (st : LState)
    (e : String × CondType × List String) : Prop :=
  (e.2.1 = CondType.OR ∧ current ∈ e.2.2) ∨
    (e.2.1 = CondType.AND ∧ sameSet e.2.2 (andPend current st e.1 e.2.2))

/-- `current` is a router one of whose declared paths occurs in `tm`. -/
def routerMatch (flow : Flow) (u : String) (tm : List String) : Prop :=
  u ∈ flow.routers ∧ ∃ p ∈ pathsD flow u, p ∈ tm

instance (current : String) (st : LState)
    (e : String × CondType × List String) :
    Decidable (entryMatch current st e) :=
  inferInstanceAs (Decidable (_ ∨ _))

instance (flow : Flow) (u : String) (tm : List String) :
    Decidable (routerMatch flow u tm) :=
  inferInstanceAs (Decidable (_ ∧ _))

theorem propose_levels_ne (ln : String) (nl : Nat) (st : LState) (x : String)
    (hx : x ≠ ln) :
    alookup (propose ln nl st).levels x = alookup st.levels x := by
  unfold propose
  by_cases hs : shouldUpdate (alookup st.levels ln) nl = true
  · rw [if_pos hs]
    show alookup (aset st.levels ln nl) x = alookup st.levels x
    exact alookup_aset_ne _ _ _ _ (fun h => hx h.symm)
  · rw [if_neg hs]

theorem propose_levels_self (ln : String) (nl : Nat) (st : LState) :
    alookup (propose ln nl st).levels ln
      = if shouldUpdate (alookup st.levels ln) nl = true then some nl
        else alookup st.levels ln := by
  unfold propose
  by_cases hs : shouldUpdate (alookup st.levels ln) nl = true
  · rw [if_pos hs, if_pos hs]
    exact alookup_aset_self ..
  · rw [if_neg hs, if_neg hs]

theorem propose_queue (ln : String) (nl : Nat) (st : LState) :
    (propose ln nl st).queue
      = if shouldUpdate (alookup st.levels ln) nl = true ∧ ln ∉ st.visited
        then st.queue ++ [ln] else st.queue := by
  unfold propose
  by_cases hs : shouldUpdate (alookup st.levels ln) nl = true
  · rw [if_pos hs]
    show (if ln ∈ st.visited then st.queue else st.queue ++ [ln]) = _
    by_cases hv : ln ∈ st.visited
    · rw [if_pos hv, if_neg (fun h => h.2 hv)]
    · rw [if_neg hv, if_pos ⟨hs, hv⟩]
  · rw [if_neg hs, if_neg (fun h => hs h.1)]

theorem propose_visited (ln : String) (nl : Nat) (st : LState) :
    (propose ln nl st).visited = st.visited := by
  unfold propose
  by_cases hs : shouldUpdate (alookup st.levels ln) nl = true
  · rw [if_pos hs]
  · rw [if_neg hs]

theorem propose_pending (ln : String) (nl : Nat) (st : LState) :
    (propose ln nl st).pending = st.pending := by
  unfold propose
  by_cases hs : shouldUpdate (alookup st.levels ln) nl = true
  · rw [if_pos hs]
  · rw [if_neg hs]

theorem procListener_levels_ne (current : String) (cl : Nat) (st : LState)
    (e : String × CondType × List String) (x : String) (hx : x ≠ e.1) :
    alookup (procListener current cl st e).levels x = alookup st.levels x := by
  obtain ⟨ln, ct, tm⟩ := e
  cases ct with
  | OR =>
    show alookup
      (if current ∈ tm then propose ln (cl + 1) st else st).levels x = _
    by_cases hg : current ∈ tm
    · rw [if_pos hg]
      exact propose_levels_ne ln (cl + 1) st x hx
    · rw [if_neg hg]
  | AND =>
    show alookup
      (if sameSet tm (andPend current st ln tm) then
        propose ln (cl + 1) (pendSet st ln (andPend current st ln tm))
      else pendSet st ln (andPend current st ln tm)).levels x = _
    by_cases hg : sameSet tm (andPend current st ln tm)
    · rw [if_pos hg]
      exact propose_levels_ne ln (cl + 1) _ x hx
    · rw [if_neg hg]
      rfl

theorem procListener_pending_ne (current : String) (cl : Nat) (st : LState)
    (e : String × CondType × List String) (x : String) (hx : x ≠ e.1) :
    alookup (procListener current cl st e).pending x = alookup st.pending x := by
  obtain ⟨ln, ct, tm⟩ := e
  cases ct with
  | OR =>
    show alookup
      (if current ∈ tm then propose ln (cl + 1) st else st).pending x = _
    by_cases hg : current ∈ tm
    · rw [if_pos hg, propose_pending]
    · rw [if_neg hg]
  | AND =>
    show alookup
      (if sameSet tm (andPend current st ln tm) then
        propose ln (cl + 1) (pendSet st ln (andPend current st ln tm))
      else pendSet st ln (andPend current st ln tm)).pending x = _
    by_cases hg : sameSet tm (andPend current st ln tm)
    · rw [if_pos hg, propose_pending]
      show alookup (aset st.pending ln (andPend current st ln tm)) x = _
      exact alookup_aset_ne _ _ _ _ (fun h => hx h.symm)
    · rw [if_neg hg]
      show alookup (aset st.pending ln (andPend current st ln tm)) x = _
      exact alookup_aset_ne _ _ _ _ (fun h => hx h.symm)

theorem procListener_visited (current : String) (cl : Nat) (st : LState)
    (e : String × CondType × List String) :
    (procListener current cl st e).visited = st.visited := by
  obtain ⟨ln, ct, tm⟩ := e
  cases ct with
  | OR =>
    show (if current ∈ tm then propose ln (cl + 1) st else st).visited = _
    by_cases hg : current ∈ tm
    · rw [if_pos hg, propose_visited]
    · rw [if_neg hg]
  | AND =>
    show (if sameSet tm (andPend current st ln tm) then
        propose ln (cl + 1) (pendSet st ln (andPend current st ln tm))
      else pendSet st ln (andPend current st ln tm)).visited = _
    by_cases hg : sameSet tm (andPend current st ln tm)
    · rw [if_pos hg, propose_visited]
      rfl
    · rw [if_neg hg]
      rfl

theorem procListener_levels_self (current : String) (cl : Nat) (st : LState)
    (e : String × CondType × List String) :
    alookup (procListener current cl st e).levels e.1
      = if entryMatch current st e
            ∧ shouldUpdate (alookup st.levels e.1) (cl + 1) = true
        then some (cl + 1) else alookup st.levels e.1 := by
  obtain ⟨ln, ct, tm⟩ := e
  cases ct with
  | OR =>
    show alookup
      (if current ∈ tm then propose ln (cl + 1) st else st).levels ln = _
    by_cases hg : current ∈ tm
    · rw [if_pos hg, propose_levels_self]
      by_cases hs : shouldUpdate (alookup st.levels ln) (cl + 1) = true
      · rw [if_pos hs, if_pos ⟨Or.inl ⟨rfl, hg⟩, hs⟩]
      · rw [if_neg hs, if_neg (fun h => hs h.2)]
    · have hnot : ¬ entryMatch current st (ln, CondType.OR, tm) := by
        rintro (⟨_, hm⟩ | ⟨hc, _⟩)
        · exact hg hm
        · cases hc
      rw [if_neg hg, if_neg (fun h => hnot h.1)]
  | AND =>
    show alookup
      (if sameSet tm (andPend current st ln tm) then
        propose ln (cl + 1) (pendSet st ln (andPend current st ln tm))
      else pendSet st ln (andPend current st ln tm)).levels ln = _
    by_cases hg : sameSet tm (andPend current st ln tm)
    · rw [if_pos hg, propose_levels_self]
      by_cases hs : shouldUpdate (alookup st.levels ln) (cl + 1) = true
      · rw [if_pos (show shouldUpdate
            (alookup (pendSet st ln (andPend current st ln tm)).levels ln)
            (cl + 1) = true from hs), if_pos ⟨Or.inr ⟨rfl, hg⟩, hs⟩]
      · rw [if_neg (show ¬ shouldUpdate
            (alookup (pendSet st ln (andPend current st ln tm)).levels ln)
            (cl + 1) = true from hs), if_neg (fun h => hs h.2)]
        rfl
    · have hnot : ¬ entryMatch current st (ln, CondType.AND, tm) := by
        rintro (⟨hc, _⟩ | ⟨_, hm⟩)
        · cases hc
        · exact hg hm
      rw [if_neg hg, if_neg (fun h => hnot h.1)]
      rfl

theorem procListener_pending_self (current : String) (cl : Nat) (st : LState)
    (e : String × CondType × List String) :
    alookup (procListener current cl st e).pending e.1
      = if e.2.1 = CondType.AND then some (andPend current st e.1 e.2.2)
        else alookup st.pending e.1 := by
  obtain ⟨ln, ct, tm⟩ := e
  cases ct with
  | OR =>
    show alookup
      (if current ∈ tm then propose ln (cl + 1) st else st).pending ln = _
    rw [if_neg (fun h => CondType.noConfusion h)]
    by_cases hg : current ∈ tm
    · rw [if_pos hg, propose_pending]
    · rw [if_neg hg]
  | AND =>
    show alookup
      (if sameSet tm (andPend current st ln tm) then
        propose ln (cl + 1) (pendSet st ln (andPend current st ln tm))
      else pendSet st ln (andPend current st ln tm)).pending ln = _
    rw [if_pos rfl]
    by_cases hg : sameSet tm (andPend current st ln tm)
    · rw [if_pos hg, propose_pending]
      exact alookup_aset_self ..
    · rw [if_neg hg]
      exact alookup_aset_self ..

theorem procListener_queue (current : String) (cl : Nat) (st : LState)
    (e : String × CondType × List String) :
    (procListener current cl st e).queue
      = if entryMatch current st e
            ∧ shouldUpdate (alookup st.levels e.1) (cl + 1) = true
            ∧ e.1 ∉ st.visited
        then st.queue ++ [e.1] else st.queue := by
  obtain ⟨ln, ct, tm⟩ := e
  cases ct with
  | OR =>
    show (if current ∈ tm then propose ln (cl + 1) st else st).queue = _
    by_cases hg : current ∈ tm
    · rw [if_pos hg, propose_queue]
      by_cases hs : shouldUpdate (alookup st.levels ln) (cl + 1) = true
          ∧ ln ∉ st.visited
      · rw [if_pos hs, if_pos ⟨Or.inl ⟨rfl, hg⟩, hs.1, hs.2⟩]
      · rw [if_neg hs, if_neg (fun h => hs ⟨h.2.1, h.2.2⟩)]
    · have hnot : ¬ entryMatch current st (ln, CondType.OR, tm) := by
        rintro (⟨_, hm⟩ | ⟨hc, _⟩)
        · exact hg hm
        · cases hc
      rw [if_neg hg, if_neg (fun h => hnot h.1)]
  | AND =>
    show (if sameSet tm (andPend current st ln tm) then
        propose ln (cl + 1) (pendSet st ln (andPend current st ln tm))
      else pendSet st ln (andPend current st ln tm)).queue = _
    by_cases hg : sameSet tm (andPend current st ln tm)
    · rw [if_pos hg, propose_queue]
      by_cases hs : shouldUpdate (alookup st.levels ln) (cl + 1) = true
          ∧ ln ∉ st.visited
      · rw [if_pos (show shouldUpdate
            (alookup (pendSet st ln (andPend current st ln tm)).levels ln)
            (cl + 1) = true
            ∧ ln ∉ (pendSet st ln (andPend current st ln tm)).visited from hs),
          if_pos ⟨Or.inr ⟨rfl, hg⟩, hs.1, hs.2⟩]
        rfl
      · rw [if_neg (show ¬ (shouldUpdate
            (alookup (pendSet st ln (andPend current st ln tm)).levels ln)
            (cl + 1) = true
            ∧ ln ∉ (pendSet st ln (andPend current st ln tm)).visited) from hs),
          if_neg (fun h => hs ⟨h.2.1, h.2.2⟩)]
        rfl
    · have hnot : ¬ entryMatch current st (ln, CondType.AND, tm) := by
        rintro (⟨hc, _⟩ | ⟨_, hm⟩)
        · cases hc
        · exact hg hm
      rw [if_neg hg, if_neg (fun h => hnot h.1)]
      rfl

/-- The condition under which the dequeue of `current` enqueues `e.1` from
the listener loop. -/
def enqCond (current : String) (cl : Nat) (st : LState)
    (e : String × CondType × List String) : Bool :=
  decide (entryMatch current st e)
    && shouldUpdate (alookup st.levels e.1) (cl + 1)
    && decide (e.1 ∉ st.visited)

theorem enqCond_iff (current : String) (cl : Nat) (st : LState)
    (e : String × CondType × List String) :
    enqCond current cl st e = true ↔
      entryMatch current st e
      ∧ shouldUpdate (alookup st.levels e.1) (cl + 1) = true
      ∧ e.1 ∉ st.visited := by
  unfold enqCond
  simp [Bool.and_eq_true, decide_eq_true_eq, and_assoc]

/-- Complete characterisation of the listener loop (lines 98-120) as a fold
over an arbitrary entry list with distinct names: what it does to the levels
and pending entries of each listener, that it leaves the visited set alone,
and exactly which names it appends to the queue. -/
theorem lsfold_effect (current : String) (cl : Nat) :
    ∀ (ls : List (String × CondType × List String)) (s : LState),
      (ls.map (·.1)).Nodup →
      (∀ x, x ∉ ls.map (·.1) →
        alookup (ls.foldl (procListener current cl) s).levels x
          = alookup s.levels x
        ∧ alookup (ls.foldl (procListener current cl) s).pending x
          = alookup s.pending x)
      ∧ (ls.foldl (procListener current cl) s).visited = s.visited
      ∧ (∀ e ∈ ls,
          alookup (ls.foldl (procListener current cl) s).levels e.1
            = if entryMatch current s e
                  ∧ shouldUpdate (alookup s.levels e.1) (cl + 1) = true
              then some (cl + 1) else alookup s.levels e.1)
      ∧ (∀ e ∈ ls,
          alookup (ls.foldl (procListener current cl) s).pending e.1
            = if e.2.1 = CondType.AND then some (andPend current s e.1 e.2.2)
              else alookup s.pending e.1)
      ∧ (ls.foldl (procListener current cl) s).queue
          = s.queue ++ (ls.filter (enqCond current cl s)).map (·.1) := by
  intro ls
  induction ls with
  | nil =>
    intro s _
    exact ⟨fun x _ => ⟨rfl, rfl⟩, rfl,
      fun e he => absurd he (List.not_mem_nil e),
      fun e he => absurd he (List.not_mem_nil e), by simp⟩
  | cons e0 rest ih =>
    intro s hnd
    rw [List.map_cons, List.nodup_cons] at hnd
    obtain ⟨h0, hnd'⟩ := hnd
    set s' := procListener current cl s e0 with hs'
    have IH := ih s' hnd'
    have hne0 : ∀ e ∈ rest, e.1 ≠ e0.1 := by
      intro e he hx
      exact h0 (hx ▸ List.mem_map_of_mem (·.1) he)
    have hagree_lv : ∀ e ∈ rest, alookup s'.levels e.1 = alookup s.levels e.1 :=
      fun e he => procListener_levels_ne current cl s e0 e.1 (hne0 e he)
    have hagree_pd : ∀ e ∈ rest,
        alookup s'.pending e.1 = alookup s.pending e.1 :=
      fun e he => procListener_pending_ne current cl s e0 e.1 (hne0 e he)
    have hagree_vis : s'.visited = s.visited :=
      procListener_visited current cl s e0
    have hpend_eq : ∀ e ∈ rest, pendD s' e.1 = pendD s e.1 := by
      intro e he
      unfold pendD
      rw [hagree_pd e he]
    have handPend : ∀ e ∈ rest,
        andPend current s' e.1 e.2.2 = andPend current s e.1 e.2.2 := by
      intro e he
      unfold andPend
      rw [hpend_eq e he]
    have hmatch : ∀ e ∈ rest,
        entryMatch current s' e = entryMatch current s e := by
      intro e he
      unfold entryMatch
      rw [handPend e he]
    have henq : ∀ e ∈ rest,
        enqCond current cl s' e = enqCond current cl s e := by
      intro e he
      unfold enqCond
      rw [hagree_lv e he, hagree_vis,
        decide_eq_decide.2 (by rw [hmatch e he])]
    have hnotmem0 : e0.1 ∉ rest.map (·.1) := h0
    refine ⟨?_, ?_, ?_, ?_, ?_⟩
    · intro x hx
      rw [List.map_cons, List.mem_cons] at hx
      push_neg at hx
      rw [List.foldl_cons, ← hs']
      have hIH := IH.1 x hx.2
      refine ⟨?_, ?_⟩
      · rw [hIH.1]
        exact procListener_levels_ne current cl s e0 x hx.1
      · rw [hIH.2]
        exact procListener_pending_ne current cl s e0 x hx.1
    · rw [List.foldl_cons, ← hs', IH.2.1]
      exact hagree_vis
    · intro e he
      rw [List.foldl_cons, ← hs']
      rcases List.mem_cons.1 he with he1 | he1
      · rw [he1, (IH.1 e0.1 hnotmem0).1]
        exact procListener_levels_self current cl s e0
      · rw [IH.2.2.1 e he1]
        simp only [hagree_lv e he1, hmatch e he1]
    · intro e he
      rw [List.foldl_cons, ← hs']
      rcases List.mem_cons.1 he with he1 | he1
      · rw [he1, (IH.1 e0.1 hnotmem0).2]
        exact procListener_pending_self current cl s e0
      · rw [IH.2.2.2.1 e he1]
        simp only [hagree_pd e he1, handPend e he1]
    · rw [List.foldl_cons, ← hs', IH.2.2.2.2, List.filter_congr henq,
        List.filter_cons, hs', procListener_queue current cl s e0]
      by_cases hc : enqCond current cl s e0 = true
      · rw [if_pos ((enqCond_iff current cl s e0).1 hc), if_pos hc]
        simp
      · rw [if_neg (fun h => hc ((enqCond_iff current cl s e0).2 h)),
          if_neg hc]

/-- The condition under which the router block enqueues `e.1` for one path. -/
def pathEnqCond (cl : Nat) (path : String) (st : LState)
    (e : String × CondType × List String) : Bool :=
  decide (path ∈ e.2.2) && shouldUpdate (alookup st.levels e.1) (cl + 1)
    && decide (e.1 ∉ st.visited)

theorem pathEnqCond_iff (cl : Nat) (path : String) (st : LState)
    (e : String × CondType × List String) :
    pathEnqCond cl path st e = true ↔
      path ∈ e.2.2 ∧ shouldUpdate (alookup st.levels e.1) (cl + 1) = true
      ∧ e.1 ∉ st.visited := by
  unfold pathEnqCond
  simp [Bool.and_eq_true, decide_eq_true_eq, and_assoc]

/-- Characterisation of the inner loop of the router block for one path. -/
theorem pfold_effect (cl : Nat) (path : String) :
    ∀ (ls : List (String × CondType × List String)) (s : LState),
      (ls.map (·.1)).Nodup →
      (∀ x, x ∉ ls.map (·.1) →
        alookup ((ls.foldl
          (fun st e => if path ∈ e.2.2 then propose e.1 (cl + 1) st else st)
          s)).levels x = alookup s.levels x)
      ∧ ((ls.foldl
          (fun st e => if path ∈ e.2.2 then propose e.1 (cl + 1) st else st)
          s)).pending = s.pending
      ∧ ((ls.foldl
          (fun st e => if path ∈ e.2.2 then propose e.1 (cl + 1) st else st)
          s)).visited = s.visited
      ∧ (∀ e ∈ ls,
          alookup ((ls.foldl
            (fun st e => if path ∈ e.2.2 then propose e.1 (cl + 1) st else st)
            s)).levels e.1
            = if path ∈ e.2.2
                  ∧ shouldUpdate (alookup s.levels e.1) (cl + 1) = true
              then some (cl + 1) else alookup s.levels e.1)
      ∧ ((ls.foldl
          (fun st e => if path ∈ e.2.2 then propose e.1 (cl + 1) st else st)
          s)).queue
          = s.queue ++ (ls.filter (pathEnqCond cl path s)).map (·.1) := by
  intro ls
  induction ls with
  | nil =>
    intro s _
    exact ⟨fun x _ => rfl, rfl, rfl,
      fun e he => absurd he (List.not_mem_nil e), by simp⟩
  | cons e0 rest ih =>
    intro s hnd
    rw [List.map_cons, List.nodup_cons] at hnd
    obtain ⟨h0, hnd'⟩ := hnd
    set g : LState → (String × CondType × List String) → LState :=
      fun st e => if path ∈ e.2.2 then propose e.1 (cl + 1) st else st with hg
    have hne0 : ∀ e ∈ rest, e.1 ≠ e0.1 := by
      intro e he hx
      exact h0 (hx ▸ List.mem_map_of_mem (·.1) he)
    set s' := g s e0 with hs'
    have hstep_lv_ne : ∀ x, x ≠ e0.1 →
        alookup s'.levels x = alookup s.levels x := by
      intro x hx
      show alookup
        (if path ∈ e0.2.2 then propose e0.1 (cl + 1) s else s).levels x = _
      by_cases hp : path ∈ e0.2.2
      · rw [if_pos hp]
        exact propose_levels_ne e0.1 (cl + 1) s x hx
      · rw [if_neg hp]
    have hstep_lv_self :
        alookup s'.levels e0.1
          = if path ∈ e0.2.2
                ∧ shouldUpdate (alookup s.levels e0.1) (cl + 1) = true
            then some (cl + 1) else alookup s.levels e0.1 := by
      show alookup
        (if path ∈ e0.2.2 then propose e0.1 (cl + 1) s else s).levels e0.1 = _
      by_cases hp : path ∈ e0.2.2
      · rw [if_pos hp, propose_levels_self]
        by_cases hsu : shouldUpdate (alookup s.levels e0.1) (cl + 1) = true
        · rw [if_pos hsu, if_pos ⟨hp, hsu⟩]
        · rw [if_neg hsu, if_neg (fun h => hsu h.2)]
      · rw [if_neg hp, if_neg (fun h => hp h.1)]
    have hstep_pend : s'.pending = s.pending := by
      show (if path ∈ e0.2.2 then propose e0.1 (cl + 1) s else s).pending = _
      by_cases hp : path ∈ e0.2.2
      · rw [if_pos hp, propose_pending]
      · rw [if_neg hp]
    have hstep_vis : s'.visited = s.visited := by
      show (if path ∈ e0.2.2 then propose e0.1 (cl + 1) s else s).visited = _
      by_cases hp : path ∈ e0.2.2
      · rw [if_pos hp, propose_visited]
      · rw [if_neg hp]
    have hstep_queue :
        s'.queue = if pathEnqCond cl path s e0 = true
          then s.queue ++ [e0.1] else s.queue := by
      show (if path ∈ e0.2.2 then propose e0.1 (cl + 1) s else s).queue = _
      by_cases hp : path ∈ e0.2.2
      · rw [if_pos hp, propose_queue]
        by_cases hsu : shouldUpdate (alookup s.levels e0.1) (cl + 1) = true
            ∧ e0.1 ∉ s.visited
        · rw [if_pos hsu,
            if_pos ((pathEnqCond_iff cl path s e0).2 ⟨hp, hsu.1, hsu.2⟩)]
        · rw [if_neg hsu, if_neg (fun h => hsu
            ⟨((pathEnqCond_iff cl path s e0).1 h).2.1,
              ((pathEnqCond_iff cl path s e0).1 h).2.2⟩)]
      · rw [if_neg hp,
          if_neg (fun h => hp ((pathEnqCond_iff cl path s e0).1 h).1)]
    have IH := ih s' hnd'
    refine ⟨?_, ?_, ?_, ?_, ?_⟩
    · intro x hx
      rw [List.map_cons, List.mem_cons] at hx
      push_neg at hx
      rw [List.foldl_cons, ← hs', IH.1 x hx.2]
      exact hstep_lv_ne x hx.1
    · rw [List.foldl_cons, ← hs', IH.2.1, hstep_pend]
    · rw [List.foldl_cons, ← hs', IH.2.2.1, hstep_vis]
    · intro e he
      rw [List.foldl_cons, ← hs']
      rcases List.mem_cons.1 he with he1 | he1
      · rw [he1, IH.1 e0.1 h0]
        exact hstep_lv_self
      · rw [IH.2.2.2.1 e he1]
        simp only [hstep_lv_ne e.1 (hne0 e he1)]
    · rw [List.foldl_cons, ← hs', IH.2.2.2.2, hstep_queue]
      have hfc : rest.filter (pathEnqCond cl path s')
          = rest.filter (pathEnqCond cl path s) := by
        apply List.filter_congr
        intro e he
        unfold pathEnqCond
        rw [hstep_lv_ne e.1 (hne0 e he), hstep_vis]
      rw [hfc, List.filter_cons]
      by_cases hc : pathEnqCond cl path s e0 = true
      · rw [if_pos hc, if_pos hc]
        simp
      · rw [if_neg hc, if_neg hc]

theorem shouldUpdate_some_self (n : Nat) : shouldUpdate (some n) n = false := by
  simp [shouldUpdate]

/-- The router block's fold over the declared paths. -/
def rpFold (flow : Flow) (cl : Nat) (ps : List String) (s : LState) : LState :=
  ps.foldl
    (fun st path => flow.listeners.foldl
      (fun st e => if path ∈ e.2.2 then propose e.1 (cl + 1) st else st) st) s

/-- Characterisation of the router block (lines 122-138): a listener gets the
proposed level when one of the declared paths occurs in its trigger set, and
is enqueued when the proposal actually improves its level. -/
theorem rpfold_effect (flow : Flow) (cl : Nat)
    (hNL : (listenerNames flow).Nodup) :
    ∀ (ps : List String) (s : LState),
      (∀ x, x ∉ listenerNames flow →
        alookup (rpFold flow cl ps s).levels x = alookup s.levels x)
      ∧ (rpFold flow cl ps s).pending = s.pending
      ∧ (rpFold flow cl ps s).visited = s.visited
      ∧ (∀ e ∈ flow.listeners,
          alookup (rpFold flow cl ps s).levels e.1
            = if (∃ p ∈ ps, p ∈ e.2.2)
                  ∧ shouldUpdate (alookup s.levels e.1) (cl + 1) = true
              then some (cl + 1) else alookup s.levels e.1)
      ∧ ∃ enq : List String,
          (rpFold flow cl ps s).queue = s.queue ++ enq ∧ enq.Nodup
          ∧ (∀ x, x ∈ enq ↔ ∃ e ∈ flow.listeners, e.1 = x
              ∧ (∃ p ∈ ps, p ∈ e.2.2)
              ∧ shouldUpdate (alookup s.levels e.1) (cl + 1) = true
              ∧ e.1 ∉ s.visited) := by
  intro ps
  induction ps with
  | nil =>
    intro s
    refine ⟨fun x _ => rfl, rfl, rfl, ?_, [], by simp [rpFold], List.nodup_nil, ?_⟩
    · intro e he
      rw [if_neg (fun h => by rcases h.1 with ⟨p, hp, _⟩; cases hp)]
      rfl
    · intro x
      simp only [List.not_mem_nil, false_iff]
      rintro ⟨e, he, _, ⟨p, hp, _⟩, _⟩
      cases hp
  | cons p ps' ih =>
    intro s
    have hP := pfold_effect cl p flow.listeners s hNL
    set s1 := flow.listeners.foldl
      (fun st e => if p ∈ e.2.2 then propose e.1 (cl + 1) st else st) s with hs1
    have hred : rpFold flow cl (p :: ps') s = rpFold flow cl ps' s1 := by
      rw [rpFold, List.foldl_cons, ← hs1]
      rfl
    have IH := ih s1
    rw [hred] at *
    refine ⟨?_, ?_, ?_, ?_, ?_⟩
    · intro x hx
      rw [IH.1 x hx, hP.1 x hx]
    · rw [IH.2.1, hP.2.1]
    · rw [IH.2.2.1, hP.2.2.1]
    · intro e he
      rw [IH.2.2.2.1 e he]
      have hv1 := hP.2.2.2.1 e he
      by_cases hp1 : p ∈ e.2.2
          ∧ shouldUpdate (alookup s.levels e.1) (cl + 1) = true
      · rw [if_pos hp1] at hv1
        rw [hv1, shouldUpdate_some_self]
        rw [if_neg (fun h => Bool.false_ne_true h.2),
          if_pos ⟨⟨p, List.mem_cons_self p ps', hp1.1⟩, hp1.2⟩]
      · rw [if_neg hp1] at hv1
        rw [hv1]
        by_cases hsu : shouldUpdate (alookup s.levels e.1) (cl + 1) = true
        · have hpm : p ∉ e.2.2 := fun hm => hp1 ⟨hm, hsu⟩
          by_cases hex : ∃ q ∈ ps', q ∈ e.2.2
          · have hex' : ∃ q ∈ p :: ps', q ∈ e.2.2 := by
              obtain ⟨q, hq, hqe⟩ := hex
              exact ⟨q, List.mem_cons_of_mem p hq, hqe⟩
            rw [if_pos ⟨hex, hsu⟩, if_pos ⟨hex', hsu⟩]
          · have hnex : ¬ ∃ q ∈ p :: ps', q ∈ e.2.2 := by
              rintro ⟨q, hq, hqe⟩
              rcases List.mem_cons.1 hq with rfl | hq'
              · exact hpm hqe
              · exact hex ⟨q, hq', hqe⟩
            rw [if_neg (fun h => hex h.1), if_neg (fun h => hnex h.1)]
        · rw [if_neg (fun h => hsu h.2), if_neg (fun h => hsu h.2)]
    · obtain ⟨enq2, hq2, hnd2, hmem2⟩ := IH.2.2.2.2
      refine ⟨(flow.listeners.filter (pathEnqCond cl p s)).map (·.1) ++ enq2,
        ?_, ?_, ?_⟩
      · rw [hq2, hP.2.2.2.2, List.append_assoc]
      · apply List.Nodup.append
        · exact hNL.sublist (List.Sublist.map _ (List.filter_sublist _))
        · exact hnd2
        · intro x hx1 hx2
          obtain ⟨e, hef, hex⟩ := List.mem_map.1 hx1
          have hef' := List.mem_filter.1 hef
          have hcond := (pathEnqCond_iff cl p s e).1 hef'.2
          have hlv1 : alookup s1.levels e.1 = some (cl + 1) := by
            rw [hP.2.2.2.1 e hef'.1, if_pos ⟨hcond.1, hcond.2.1⟩]
          obtain ⟨e', he', he'x, _, hsu', _⟩ := (hmem2 x).1 hx2
          rw [← hex] at he'x
          rw [he'x, hlv1, shouldUpdate_some_self] at hsu'
          exact Bool.false_ne_true hsu'
      · intro x
        rw [List.mem_append]
        constructor
        · rintro (hx | hx)
          · obtain ⟨e, hef, hex⟩ := List.mem_map.1 hx
            have hef' := List.mem_filter.1 hef
            have hcond := (pathEnqCond_iff cl p s e).1 hef'.2
            exact ⟨e, hef'.1, hex,
              ⟨p, List.mem_cons_self p ps', hcond.1⟩, hcond.2.1, hcond.2.2⟩
          · obtain ⟨e, he, hex, hexq, hsu1, hnv1⟩ := (hmem2 x).1 hx
            have hv1 := hP.2.2.2.1 e he
            have hnc : ¬ (p ∈ e.2.2
                ∧ shouldUpdate (alookup s.levels e.1) (cl + 1) = true) := by
              intro hc
              rw [if_pos hc] at hv1
              rw [hv1, shouldUpdate_some_self] at hsu1
              exact Bool.false_ne_true hsu1
            rw [if_neg hnc] at hv1
            rw [hv1] at hsu1
            rw [hP.2.2.1] at hnv1
            obtain ⟨q, hq, hqe⟩ := hexq
            exact ⟨e, he, hex, ⟨q, List.mem_cons_of_mem p hq, hqe⟩, hsu1, hnv1⟩
        · rintro ⟨e, he, hex, ⟨q, hq, hqe⟩, hsu, hnv⟩
          by_cases hpc : pathEnqCond cl p s e = true
          · left
            exact List.mem_map.2 ⟨e, List.mem_filter.2 ⟨he, hpc⟩, hex⟩
          · right
            have hnc : ¬ (p ∈ e.2.2
                ∧ shouldUpdate (alookup s.levels e.1) (cl + 1) = true) := by
              intro hc
              exact hpc ((pathEnqCond_iff cl p s e).2 ⟨hc.1, hc.2, hnv⟩)
            have hv1 := hP.2.2.2.1 e he
            rw [if_neg hnc] at hv1
            have hq' : q ∈ ps' := by
              rcases List.mem_cons.1 hq with rfl | hq'
              · exact absurd ⟨hqe, hsu⟩ hnc
              · exact hq'
            refine (hmem2 x).2 ⟨e, he, hex, ⟨q, hq', hqe⟩, ?_, ?_⟩
            · rw [hv1]
              exact hsu
            · rw [hP.2.2.1]
              exact hnv

/-- The dequeue of `current` proposes to entry `e`: through the listener loop
(`entryMatch`) or through the router block (`routerMatch`). -/
def stepMatch (flow : Flow) (current : String) (st : LState)
    (e : String × CondType × List String) : Prop :=
  entryMatch current st e ∨ routerMatch flow current e.2.2

instance (flow : Flow) (current : String) (st : LState)
    (e : String × CondType × List String) :
    Decidable (stepMatch flow current st e) :=
  inferInstanceAs (Decidable (_ ∨ _))

/-- Complete characterisation of one loop iteration (`bfsStep`): levels,
pending accumulators, visited set, and the exact set of enqueued names. -/
theorem bfsStep_effect (flow : Flow) (hNL : (listenerNames flow).Nodup)
    (st : LState) (current : String) :
    (∀ x, x ∉ listenerNames flow →
      alookup (bfsStep flow st current).levels x = alookup st.levels x
      ∧ alookup (bfsStep flow st current).pending x = alookup st.pending x)
    ∧ (bfsStep flow st current).visited = setInsert current st.visited
    ∧ (∀ e ∈ flow.listeners,
        alookup (bfsStep flow st current).levels e.1
          = if stepMatch flow current st e
                ∧ shouldUpdate (alookup st.levels e.1) (lvlD st current + 1)
                    = true
            then some (lvlD st current + 1) else alookup st.levels e.1)
    ∧ (∀ e ∈ flow.listeners,
        alookup (bfsStep flow st current).pending e.1
          = if e.2.1 = CondType.AND then some (andPend current st e.1 e.2.2)
            else alookup st.pending e.1)
    ∧ ∃ enq : List String,
        (bfsStep flow st current).queue = st.queue ++ enq ∧ enq.Nodup
        ∧ (∀ x, x ∈ enq ↔ ∃ e ∈ flow.listeners, e.1 = x
            ∧ stepMatch flow current st e
            ∧ shouldUpdate (alookup st.levels e.1) (lvlD st current + 1) = true
            ∧ e.1 ∉ setInsert current st.visited) := by
  set cl := lvlD st current with hcl
  set st1 : LState := { st with visited := setInsert current st.visited }
    with hst1
  have e1 : st1.levels = st.levels := rfl
  have e2 : st1.pending = st.pending := rfl
  have e3 : st1.queue = st.queue := rfl
  have e4 : st1.visited = setInsert current st.visited := rfl
  have hEM : ∀ e, entryMatch current st1 e = entryMatch current st e := by
    intro e
    unfold entryMatch andPend pendD
    rw [e2]
  have hAP : ∀ ln tm, andPend current st1 ln tm = andPend current st ln tm := by
    intro ln tm
    unfold andPend pendD
    rw [e2]
  have hL := lsfold_effect current cl flow.listeners st1 hNL
  set stL := flow.listeners.foldl (procListener current cl) st1 with hstL
  have hred : bfsStep flow st current = routerPhase flow current cl stL := by
    rw [bfsStep]
    rfl
  have hLlv : ∀ e ∈ flow.listeners,
      alookup stL.levels e.1
        = if entryMatch current st e
              ∧ shouldUpdate (alookup st.levels e.1) (cl + 1) = true
          then some (cl + 1) else alookup st.levels e.1 := by
    intro e he
    exact hL.2.2.1 e he
  have hLpd : ∀ e ∈ flow.listeners,
      alookup stL.pending e.1
        = if e.2.1 = CondType.AND then some (andPend current st e.1 e.2.2)
          else alookup st.pending e.1 := by
    intro e he
    exact hL.2.2.2.1 e he
  have hLvis : stL.visited = setInsert current st.visited := hL.2.1
  have hLq : stL.queue
      = st.queue ++ (flow.listeners.filter (enqCond current cl st1)).map (·.1) :=
    hL.2.2.2.2
  by_cases hr : current ∈ flow.routers
  · have hred2 : routerPhase flow current cl stL
        = rpFold flow cl (pathsD flow current) stL := by
      rw [routerPhase, if_pos hr]
      rfl
    have hR := rpfold_effect flow cl hNL (pathsD flow current) stL
    have hRM : ∀ tm : List String,
        routerMatch flow current tm ↔ ∃ p ∈ pathsD flow current, p ∈ tm := by
      intro tm
      exact ⟨fun h => h.2, fun h => ⟨hr, h⟩⟩
    rw [hred, hred2]
    refine ⟨?_, ?_, ?_, ?_, ?_⟩
    · intro x hx
      constructor
      · rw [hR.1 x hx, (hL.1 x hx).1]
      · rw [hR.2.1, (hL.1 x hx).2]
    · rw [hR.2.2.1, hLvis]
    · intro e he
      rw [hR.2.2.2.1 e he]
      have hvL := hLlv e he
      by_cases hp1 : entryMatch current st e
          ∧ shouldUpdate (alookup st.levels e.1) (cl + 1) = true
      · rw [if_pos hp1] at hvL
        rw [hvL, shouldUpdate_some_self,
          if_neg (fun h => Bool.false_ne_true h.2),
          if_pos ⟨Or.inl hp1.1, hp1.2⟩]
      · rw [if_neg hp1] at hvL
        rw [hvL]
        by_cases hsu : shouldUpdate (alookup st.levels e.1) (cl + 1) = true
        · have hem : ¬ entryMatch current st e := fun h => hp1 ⟨h, hsu⟩
          by_cases hex : ∃ p ∈ pathsD flow current, p ∈ e.2.2
          · rw [if_pos ⟨hex, hsu⟩,
              if_pos ⟨Or.inr ((hRM e.2.2).2 hex), hsu⟩]
          · rw [if_neg (fun h => hex h.1), if_neg (fun h => ?_)]
            rcases h.1 with hm | hm
            · exact hem hm
            · exact hex ((hRM e.2.2).1 hm)
        · rw [if_neg (fun h => hsu h.2), if_neg (fun h => hsu h.2)]
    · intro e he
      rw [hR.2.1, hLpd e he]
    · obtain ⟨enq2, hq2, hnd2, hmem2⟩ := hR.2.2.2.2
      refine ⟨(flow.listeners.filter (enqCond current cl st1)).map (·.1)
        ++ enq2, ?_, ?_, ?_⟩
      · rw [hq2, hLq, List.append_assoc]
      · apply List.Nodup.append
        · exact hNL.sublist (List.Sublist.map _ (List.filter_sublist _))
        · exact hnd2
        · intro x hx1 hx2
          obtain ⟨e, hef, hex⟩ := List.mem_map.1 hx1
          have hef' := List.mem_filter.1 hef
          have hcond := (enqCond_iff current cl st1 e).1 hef'.2
          have hlvL : alookup stL.levels e.1 = some (cl + 1) := by
            rw [hLlv e hef'.1,
              if_pos ⟨(hEM e) ▸ hcond.1, hcond.2.1⟩]
          obtain ⟨e', he', he'x, _, hsu', _⟩ := (hmem2 x).1 hx2
          rw [← hex] at he'x
          rw [he'x, hlvL, shouldUpdate_some_self] at hsu'
          exact Bool.false_ne_true hsu'
      · intro x
        rw [List.mem_append]
        constructor
        · rintro (hx | hx)
          · obtain ⟨e, hef, hex⟩ := List.mem_map.1 hx
            have hef' := List.mem_filter.1 hef
            have hcond := (enqCond_iff current cl st1 e).1 hef'.2
            exact ⟨e, hef'.1, hex, Or.inl ((hEM e) ▸ hcond.1), hcond.2.1,
              (e4 ▸ hcond.2.2 : e.1 ∉ setInsert current st.visited)⟩
          · obtain ⟨e, he, hex, hexq, hsu1, hnv1⟩ := (hmem2 x).1 hx
            have hvL := hLlv e he
            have hnc : ¬ (entryMatch current st e
                ∧ shouldUpdate (alookup st.levels e.1) (cl + 1) = true) := by
              intro hc
              rw [if_pos hc] at hvL
              rw [hvL, shouldUpdate_some_self] at hsu1
              exact Bool.false_ne_true hsu1
            rw [if_neg hnc] at hvL
            rw [hvL] at hsu1
            rw [hLvis] at hnv1
            exact ⟨e, he, hex, Or.inr ((hRM e.2.2).2 hexq), hsu1, hnv1⟩
        · rintro ⟨e, he, hex, hsm, hsu, hnv⟩
          by_cases hpc : enqCond current cl st1 e = true
          · left
            exact List.mem_map.2 ⟨e, List.mem_filter.2 ⟨he, hpc⟩, hex⟩
          · right
            have hnem : ¬ entryMatch current st e := by
              intro hm
              exact hpc ((enqCond_iff current cl st1 e).2
                ⟨(hEM e).symm ▸ hm, hsu, e4.symm ▸ hnv⟩)
            have hrm : routerMatch flow current e.2.2 := by
              rcases hsm with hm | hm
              · exact absurd hm hnem
              · exact hm
            have hvL := hLlv e he
            rw [if_neg (fun h => hnem h.1)] at hvL
            refine (hmem2 x).2 ⟨e, he, hex, (hRM e.2.2).1 hrm, ?_, ?_⟩
            · rw [hvL]
              exact hsu
            · rw [hLvis]
              exact hnv
  · have hred2 : routerPhase flow current cl stL = stL := by
      rw [routerPhase, if_neg hr]
    have hnoRM : ∀ tm : List String, ¬ routerMatch flow current tm :=
      fun tm h => hr h.1
    rw [hred, hred2]
    refine ⟨?_, ?_, ?_, ?_, ?_⟩
    · intro x hx
      exact ⟨(hL.1 x hx).1, (hL.1 x hx).2⟩
    · exact hLvis
    · intro e he
      rw [hLlv e he]
      by_cases hp1 : entryMatch current st e
          ∧ shouldUpdate (alookup st.levels e.1) (cl + 1) = true
      · rw [if_pos hp1, if_pos ⟨Or.inl hp1.1, hp1.2⟩]
      · rw [if_neg hp1, if_neg (fun h => ?_)]
        rcases h.1 with hm | hm
        · exact hp1 ⟨hm, h.2⟩
        · exact hnoRM e.2.2 hm
    · intro e he
      exact hLpd e he
    · refine ⟨(flow.listeners.filter (enqCond current cl st1)).map (·.1),
        hLq, ?_, ?_⟩
      · exact hNL.sublist (List.Sublist.map _ (List.filter_sublist _))
      · intro x
        constructor
        · intro hx
          obtain ⟨e, hef, hex⟩ := List.mem_map.1 hx
          have hef' := List.mem_filter.1 hef
          have hcond := (enqCond_iff current cl st1 e).1 hef'.2
          exact ⟨e, hef'.1, hex, Or.inl ((hEM e) ▸ hcond.1), hcond.2.1,
            (e4 ▸ hcond.2.2 : e.1 ∉ setInsert current st.visited)⟩
        · rintro ⟨e, he, hex, hsm, hsu, hnv⟩
          have hem : entryMatch current st e := by
            rcases hsm with hm | hm
            · exact hm
            · exact absurd hm (hnoRM e.2.2)
          refine List.mem_map.2 ⟨e, List.mem_filter.2 ⟨he,
            (enqCond_iff current cl st1 e).2
              ⟨(hEM e).symm ▸ hem, hsu, e4.symm ▸ hnv⟩⟩, hex⟩

/-- C1 (amended): during the listener loop of one dequeue, an AND-listener's
level changes only when, after recording `current`, its satisfied-trigger
accumulator equals its full trigger set (a comparison made whether or not
`current` is a trigger), and a proper accumulator produces no assignment
there; but the dequeue as a whole can still assign the listener through the
router block (lines 122-138), which bypasses the accumulator whenever one of
`current`'s declared path labels is a trigger. -/
theorem claim_C1 (flow : Flow) (hNL : (listenerNames flow).Nodup)
    (st : LState) (current : String) (e : String × CondType × List String)
    (he : e ∈ flow.listeners) (hAND : e.2.1 = CondType.AND) :
    (alookup (listenerPhase flow current (lvlD st current)
        { st with visited := setInsert current st.visited }).levels e.1
      ≠ alookup st.levels e.1
      → sameSet e.2.2 (andPend current st e.1 e.2.2))
    ∧ (¬ sameSet e.2.2 (andPend current st e.1 e.2.2)
      → alookup (listenerPhase flow current (lvlD st current)
          { st with visited := setInsert current st.visited }).levels e.1
        = alookup st.levels e.1)
    ∧ (alookup (bfsStep flow st current).levels e.1 ≠ alookup st.levels e.1
      → sameSet e.2.2 (andPend current st e.1 e.2.2)
        ∨ routerMatch flow current e.2.2) := by
  have hL := lsfold_effect current (lvlD st current) flow.listeners
    { st with visited := setInsert current st.visited } hNL
  have hlv : alookup (listenerPhase flow current (lvlD st current)
      { st with visited := setInsert current st.visited }).levels e.1
      = if entryMatch current st e
            ∧ shouldUpdate (alookup st.levels e.1) (lvlD st current + 1) = true
        then some (lvlD st current + 1) else alookup st.levels e.1 :=
    hL.2.2.1 e he
  have hEMiff : entryMatch current st e
      ↔ sameSet e.2.2 (andPend current st e.1 e.2.2) := by
    constructor
    · rintro (⟨hor, _⟩ | ⟨_, hs⟩)
      · rw [hAND] at hor
        exact absurd hor (by decide)
      · exact hs
    · intro hs
      exact Or.inr ⟨hAND, hs⟩
  refine ⟨?_, ?_, ?_⟩
  · intro hne
    by_contra hnot
    apply hne
    rw [hlv, if_neg (fun h => hnot (hEMiff.1 h.1))]
  · intro hnot
    rw [hlv, if_neg (fun h => hnot (hEMiff.1 h.1))]
  · intro hne
    have hB := (bfsStep_effect flow hNL st current).2.2.1 e he
    by_cases hc : stepMatch flow current st e
        ∧ shouldUpdate (alookup st.levels e.1) (lvlD st current + 1) = true
    · rcases hc.1 with hm | hm
      · exact Or.inl (hEMiff.1 hm)
      · exact Or.inr hm
    · rw [hB, if_neg hc] at hne
      exact absurd rfl hne

theorem claim_C1_witness :
    (listenerNames flowC2).Nodup
    ∧ ("L", CondType.AND, ["p", "B"]) ∈ flowC2.listeners
    ∧ ((alookup (listenerPhase flowC2 "R" (lvlD (initState flowC2) "R")
          { initState flowC2 with
              visited := setInsert "R" (initState flowC2).visited }).levels "L"
        ≠ alookup (initState flowC2).levels "L"
        → sameSet ["p", "B"] (andPend "R" (initState flowC2) "L" ["p", "B"]))
      ∧ (¬ sameSet ["p", "B"] (andPend "R" (initState flowC2) "L" ["p", "B"])
        → alookup (listenerPhase flowC2 "R" (lvlD (initState flowC2) "R")
            { initState flowC2 with
                visited := setInsert "R" (initState flowC2).visited }).levels "L"
          = alookup (initState flowC2).levels "L")
      ∧ (alookup (bfsStep flowC2 (initState flowC2) "R").levels "L"
          ≠ alookup (initState flowC2).levels "L"
        → sameSet ["p", "B"] (andPend "R" (initState flowC2) "L" ["p", "B"])
          ∨ routerMatch flowC2 "R" ["p", "B"])) :=
  ⟨by decide, by decide,
    claim_C1 flowC2 (by decide) (initState flowC2) "R"
      ("L", CondType.AND, ["p", "B"]) (by decide) rfl⟩

/-! #### The run invariant

`Inv` collects what stays true of the loop state across iterations of the
`while queue:` loop: structural facts about the queue and the levels
dictionary (`InvB`), the content of the pending accumulators (`InvP`),
completion of fully accumulated AND-listeners (`InvC`), the provenance of
every assigned listener level (`InvO`), and the upper bound every visited
firing imposes on an OR-listener (`InvS`). -/

/-- `hasattr(method, "__is_start_method__")` for the name `n`. -/
def isStart (flow : Flow) (n : String) : Bool :=
  (alookup flow.methods n).getD false

theorem assigned_of_some {st : LState} {n : String} {v : Nat}
    (h : alookup st.levels n = some v) : assigned st n := by
  unfold assigned
  rw [h]
  exact Option.some_ne_none v

theorem assigned_iff {st : LState} {n : String} :
    assigned st n ↔ ∃ v, alookup st.levels n = some v :=
  Option.ne_none_iff_exists'

theorem lvlD_eq {st : LState} {n : String} {v : Nat}
    (h : alookup st.levels n = some v) : lvlD st n = v := by
  unfold lvlD
  rw [h]
  rfl

/-- Structural invariant of the loop state: distinct keys, a duplicate-free
queue of unvisited assigned names sorted by level, levels spread over at most
two consecutive values relative to any queue member, every assigned name
still in flight or already visited, visited levels below queue levels, and
keys drawn from the method and listener names. -/
def InvB (flow : Flow) (st : LState) : Prop :=
  (st.levels.map (·.1)).Nodup
  ∧ st.queue.Nodup
  ∧ st.visited.Nodup
  ∧ (∀ q ∈ st.queue, q ∉ st.visited)
  ∧ (∀ q ∈ st.queue, assigned st q)
  ∧ List.Pairwise (fun a b => lvlD st a ≤ lvlD st b) st.queue
  ∧ (∀ q ∈ st.queue, ∀ p ∈ st.levels, p.2 ≤ lvlD st q + 1)
  ∧ (∀ p ∈ st.levels, p.1 ∈ st.visited ∨ p.1 ∈ st.queue)
  ∧ (∀ v ∈ st.visited, assigned st v)
  ∧ (∀ v ∈ st.visited, ∀ q ∈ st.queue, lvlD st v ≤ lvlD st q)
  ∧ (∀ p ∈ st.levels, p.1 ∈ methodNames flow ∨ p.1 ∈ listenerNames flow)

/-- The pending accumulator of each AND-listener holds exactly its visited
triggers. -/
def InvP (flow : Flow) (st : LState) : Prop :=
  ∀ e ∈ flow.listeners, e.2.1 = CondType.AND →
    (∀ x ∈ pendD st e.1, x ∈ e.2.2 ∧ x ∈ st.visited)
    ∧ (∀ x ∈ e.2.2, x ∈ st.visited → x ∈ pendD st e.1)

/-- An AND-listener with a non-empty, fully accumulated trigger set has been
assigned. -/
def InvC (flow : Flow) (st : LState) : Prop :=
  ∀ e ∈ flow.listeners, e.2.1 = CondType.AND → e.2.2 ≠ [] →
    sameSet e.2.2 (pendD st e.1) → assigned st e.1

/-- Provenance of an assigned listener level: an OR-level is one more than
the level of some visited trigger or matching router; an AND-level comes
from a visited matching router, or (for a non-empty trigger set) sits one
above the maximum level of its triggers, all of them visited. -/
def Justified (flow : Flow) (st : LState)
    (e : String × CondType × List String) : Prop :=
  (e.2.1 = CondType.OR ∧
    ∃ u ∈ st.visited, (u ∈ e.2.2 ∨ routerMatch flow u e.2.2)
      ∧ lvlD st e.1 = lvlD st u + 1)
  ∨ (e.2.1 = CondType.AND ∧
    ((∃ u ∈ st.visited, routerMatch flow u e.2.2
        ∧ lvlD st e.1 = lvlD st u + 1)
      ∨ e.2.2 = []
      ∨ ((∀ t ∈ e.2.2, t ∈ st.visited)
        ∧ (∃ t ∈ e.2.2, lvlD st e.1 = lvlD st t + 1)
        ∧ (∀ t ∈ e.2.2, lvlD st t + 1 ≤ lvlD st e.1))))

/-- Every assigned listener that is not itself a start method has a
justified level. -/
def InvO (flow : Flow) (st : LState) : Prop :=
  ∀ e ∈ flow.listeners, isStart flow e.1 = false → assigned st e.1 →
    Justified flow st e

/-- Every visited firing bounds an OR-listener's level from above. -/
def InvS (flow : Flow) (st : LState) : Prop :=
  ∀ e ∈ flow.listeners, e.2.1 = CondType.OR →
    ∀ u ∈ st.visited, (u ∈ e.2.2 ∨ routerMatch flow u e.2.2) →
      assigned st e.1 ∧ lvlD st e.1 ≤ lvlD st u + 1

/-- The full run invariant of `calculate_node_levels`. -/
def Inv (flow : Flow) (st : LState) : Prop :=
  InvB flow st ∧ InvP flow st ∧ InvC flow st ∧ InvO flow st ∧ InvS flow st

theorem aset_of_not_mem {α : Type} (l : List (String × α)) (k : String)
    (v : α) (h : k ∉ l.map Prod.fst) : aset l k v = l ++ [(k, v)] := by
  induction l with
  | nil => rfl
  | cons hd t ih =>
    obtain ⟨k0, v0⟩ := hd
    simp only [List.map_cons, List.mem_cons] at h
    push_neg at h
    show (if k0 = k then (k, v) :: t else (k0, v0) :: aset t k v) = _
    rw [if_neg (fun he => h.1 he.symm), ih h.2]
    rfl

/-- With distinct method names, the seeding loop produces exactly the
flagged methods, in order, each at level `0`. -/
theorem initState_levels_eq (flow : Flow) (hNM : (methodNames flow).Nodup) :
    (initState flow).levels
      = (flow.methods.filter (fun m => m.2)).map (fun m => (m.1, (0 : Nat))) := by
  show flow.methods.foldl (fun acc m => if m.2 then aset acc m.1 0 else acc) []
    = _
  have main : ∀ (ms : List (String × Bool)) (acc : List (String × Nat)),
      (∀ m ∈ ms, m.1 ∉ acc.map Prod.fst) →
      (ms.map (·.1)).Nodup →
      ms.foldl (fun acc m => if m.2 then aset acc m.1 0 else acc) acc
        = acc ++ (ms.filter (fun m => m.2)).map (fun m => (m.1, (0 : Nat))) := by
    intro ms
    induction ms with
    | nil =>
      intro acc _ _
      simp
    | cons m rest ih =>
      intro acc hdis hnd
      rw [List.foldl_cons, List.filter_cons]
      simp only [List.map_cons, List.nodup_cons] at hnd
      by_cases hf : m.2 = true
      · rw [if_pos hf, if_pos (by simp [hf]),
          aset_of_not_mem acc m.1 0 (hdis m (List.mem_cons_self m rest)),
          ih (acc ++ [(m.1, 0)]) ?_ hnd.2]
        · simp
        · intro m' hm'
          simp only [List.map_append, List.mem_append]
          push_neg
          refine ⟨hdis m' (List.mem_cons_of_mem m hm'), ?_⟩
          simp only [List.map_cons, List.map_nil, List.mem_singleton]
          intro he
          exact hnd.1 (he ▸ List.mem_map_of_mem (·.1) hm')
      · rw [if_neg hf, if_neg (by simp [hf]),
          ih acc (fun m' hm' => hdis m' (List.mem_cons_of_mem m hm')) hnd.2]
  have h := main flow.methods [] (by simp) hNM
  simpa using h

/-- The invariant holds on entry to the `while` loop. -/
theorem inv_init (flow : Flow) (hNM : (methodNames flow).Nodup) :
    Inv flow (initState flow) := by
  have hlev := initState_levels_eq flow hNM
  have hq := initState_queue flow
  have hvis : (initState flow).visited = [] := rfl
  have hpend : (initState flow).pending = [] := rfl
  have hkey : ∀ p ∈ (initState flow).levels,
      p.2 = 0 ∧ p.1 ∈ (initState flow).queue := by
    intro p hp
    rw [hlev] at hp
    obtain ⟨m, hm, hmp⟩ := List.mem_map.1 hp
    refine ⟨by rw [← hmp], ?_⟩
    rw [hq, ← hmp]
    exact List.mem_map_of_mem _ hm
  have hassq : ∀ q ∈ (initState flow).queue,
      alookup (initState flow).levels q = some 0 := by
    intro q hqm
    rw [hq] at hqm
    obtain ⟨m, hm, hmq⟩ := List.mem_map.1 hqm
    have hm' := List.mem_filter.1 hm
    exact initState_levels_zero flow q
      ⟨m, hm'.1, hmq, by simpa using hm'.2⟩
  have hlvl0 : ∀ q ∈ (initState flow).queue, lvlD (initState flow) q = 0 :=
    fun q hqm => lvlD_eq (hassq q hqm)
  refine ⟨⟨?_, ?_, ?_, ?_, ?_, ?_, ?_, ?_, ?_, ?_, ?_⟩, ?_, ?_, ?_, ?_⟩
  · rw [hlev, List.map_map]
    exact hNM.sublist
      (List.Sublist.map _ (List.filter_sublist _))
  · rw [hq]
    exact hNM.sublist
      (List.Sublist.map _ (List.filter_sublist _))
  · rw [hvis]
    exact List.nodup_nil
  · intro q _
    rw [hvis]
    exact List.not_mem_nil q
  · intro q hqm
    exact assigned_of_some (hassq q hqm)
  · refine List.pairwise_of_forall_mem_list ?_
    intro a ha b hb
    rw [hlvl0 a ha, hlvl0 b hb]
  · intro q _ p hp
    rw [(hkey p hp).1]
    exact Nat.zero_le _
  · intro p hp
    exact Or.inr (hkey p hp).2
  · intro v hv
    rw [hvis] at hv
    exact absurd hv (List.not_mem_nil v)
  · intro v hv
    rw [hvis] at hv
    exact absurd hv (List.not_mem_nil v)
  · have h := initState_keysOK flow
    exact h
  · intro e _ _
    constructor
    · intro x hx
      have : pendD (initState flow) e.1 = [] := by
        unfold pendD
        rw [hpend]
        rfl
      rw [this] at hx
      exact absurd hx (List.not_mem_nil x)
    · intro x _ hx
      rw [hvis] at hx
      exact absurd hx (List.not_mem_nil x)
  · intro e _ _ hne hss
    exfalso
    obtain ⟨t, ht⟩ := List.exists_mem_of_ne_nil e.2.2 hne
    have : pendD (initState flow) e.1 = [] := by
      unfold pendD
      rw [hpend]
      rfl
    have hmem := hss.1 t ht
    rw [this] at hmem
    exact absurd hmem (List.not_mem_nil t)
  · intro e he hns hass
    exfalso
    obtain ⟨v, hv⟩ := assigned_iff.1 hass
    have hp := mem_of_alookup_eq_some hv
    rw [hlev] at hp
    obtain ⟨m, hm, hmp⟩ := List.mem_map.1 hp
    have hm' := List.mem_filter.1 hm
    have hkeq : m.1 = e.1 := congrArg Prod.fst hmp
    have : alookup flow.methods e.1 = some m.2 := by
      refine alookup_eq_some_of_mem hNM ?_
      rw [← hkeq]
      exact hm'.1
    rw [show isStart flow e.1 = (alookup flow.methods e.1).getD false from rfl,
      this] at hns
    have : m.2 = true := by simpa using hm'.2
    rw [this] at hns
    simp at hns
  · intro e _ _ u hu
    rw [hvis] at hu
    exact absurd hu (List.not_mem_nil u)

theorem aset_map_fst {α : Type} (l : List (String × α)) (k : String) (v : α) :
    (aset l k v).map Prod.fst
      = if k ∈ l.map Prod.fst then l.map Prod.fst
        else l.map Prod.fst ++ [k] := by
  induction l with
  | nil => simp [aset]
  | cons hd t ih =>
    obtain ⟨k0, v0⟩ := hd
    by_cases hk : k0 = k
    · subst hk
      simp [aset]
    · show ((if k0 = k then (k, v) :: t
          else (k0, v0) :: aset t k v).map Prod.fst) = _
      rw [if_neg hk]
      simp only [List.map_cons, ih]
      by_cases hm : k ∈ t.map Prod.fst
      · rw [if_pos hm,
          if_pos (List.mem_cons_of_mem _ hm)]
      · rw [if_neg hm, if_neg (fun h => ?_)]
        · rfl
        · rcases List.mem_cons.1 h with h1 | h1
          · exact hk h1.symm
          · exact hm h1

theorem aset_keys_nodup {α : Type} {l : List (String × α)}
    (h : (l.map Prod.fst).Nodup) (k : String) (v : α) :
    ((aset l k v).map Prod.fst).Nodup := by
  rw [aset_map_fst]
  by_cases hm : k ∈ l.map Prod.fst
  · rw [if_pos hm]
    exact h
  · rw [if_neg hm]
    apply List.Nodup.append h (List.nodup_singleton k)
    intro x hx1 hx2
    rw [List.mem_singleton] at hx2
    exact hm (hx2 ▸ hx1)

theorem propose_keysNodup (ln : String) (nl : Nat) (st : LState)
    (h : (st.levels.map Prod.fst).Nodup) :
    ((propose ln nl st).levels.map Prod.fst).Nodup := by
  unfold propose
  by_cases hs : shouldUpdate (alookup st.levels ln) nl = true
  · rw [if_pos hs]
    exact aset_keys_nodup h ln nl
  · rw [if_neg hs]
    exact h

theorem procListener_keysNodup (current : String) (cl : Nat) (st : LState)
    (e : String × CondType × List String)
    (h : (st.levels.map Prod.fst).Nodup) :
    ((procListener current cl st e).levels.map Prod.fst).Nodup := by
  obtain ⟨ln, ct, tm⟩ := e
  cases ct with
  | OR =>
    show ((if current ∈ tm then propose ln (cl + 1) st
      else st).levels.map Prod.fst).Nodup
    by_cases hg : current ∈ tm
    · rw [if_pos hg]
      exact propose_keysNodup ln (cl + 1) st h
    · rw [if_neg hg]
      exact h
  | AND =>
    show ((if sameSet tm (andPend current st ln tm) then
        propose ln (cl + 1) (pendSet st ln (andPend current st ln tm))
      else pendSet st ln (andPend current st ln tm)).levels.map Prod.fst).Nodup
    by_cases hg : sameSet tm (andPend current st ln tm)
    · rw [if_pos hg]
      exact propose_keysNodup ln (cl + 1) _ h
    · rw [if_neg hg]
      exact h

theorem bfsStep_keysNodup (flow : Flow) (st : LState) (current : String)
    (h : (st.levels.map Prod.fst).Nodup) :
    ((bfsStep flow st current).levels.map Prod.fst).Nodup := by
  unfold bfsStep
  have h1 : ((listenerPhase flow current (lvlD st current)
      { st with visited := setInsert current st.visited }).levels.map
        Prod.fst).Nodup := by
    unfold listenerPhase
    exact lfoldl_pres (fun s => (s.levels.map Prod.fst).Nodup)
      (procListener current (lvlD st current)) flow.listeners
      (fun e _ s hs => procListener_keysNodup current (lvlD st current) s e hs)
      _ h
  unfold routerPhase
  by_cases hr : current ∈ flow.routers
  · rw [if_pos hr]
    apply lfoldl_pres (fun s => (s.levels.map Prod.fst).Nodup)
    · intro path _ s hs
      apply lfoldl_pres (fun s => (s.levels.map Prod.fst).Nodup)
      · intro e _ s' hs'
        by_cases hg : path ∈ e.2.2
        · rw [if_pos hg]
          exact propose_keysNodup e.1 (lvlD st current + 1) s' hs'
        · rw [if_neg hg]
          exact hs'
      · exact hs
    · exact h1
  · rw [if_neg hr]
    exact h1

theorem shouldUpdate_some_iff (v nl : Nat) :
    shouldUpdate (some v) nl = true ↔ nl < v := by
  unfold shouldUpdate
  exact decide_eq_true_iff

/-- One iteration of the `while` loop preserves the run invariant. -/
theorem inv_step (flow : Flow) (hNL : (listenerNames flow).Nodup)
    (st : LState) (current : String) (rest : List String)
    (hq : st.queue = current :: rest) (hInv : Inv flow st) :
    Inv flow (bfsStep flow { st with queue := rest } current) := by
  obtain ⟨⟨hB1, hB2, hB3, hB4, hB5, hB6, hB7, hB8, hB9, hB10, hB11⟩,
    hP, hC, hO, hS⟩ := hInv
  have hcur_q : current ∈ st.queue := by
    rw [hq]
    exact List.mem_cons_self _ _
  have hcur_ass : assigned st current := hB5 current hcur_q
  have hcur_nvis : current ∉ st.visited := hB4 current hcur_q
  have hcur_nrest : current ∉ rest := by
    have h := hB2
    rw [hq] at h
    exact (List.nodup_cons.1 h).1
  have hrest_nd : rest.Nodup := by
    have h := hB2
    rw [hq] at h
    exact (List.nodup_cons.1 h).2
  have hrest_q : ∀ q ∈ rest, q ∈ st.queue := by
    intro q hqm
    rw [hq]
    exact List.mem_cons_of_mem _ hqm
  have hrest_ge : ∀ q ∈ rest, lvlD st current ≤ lvlD st q := by
    have h := hB6
    rw [hq] at h
    exact fun q hqm => (List.pairwise_cons.1 h).1 q hqm
  have hrest_pw : List.Pairwise (fun a b => lvlD st a ≤ lvlD st b) rest := by
    have h := hB6
    rw [hq] at h
    exact (List.pairwise_cons.1 h).2
  have hval_le : ∀ p ∈ st.levels, p.2 ≤ lvlD st current + 1 :=
    hB7 current hcur_q
  have hE := bfsStep_effect flow hNL { st with queue := rest } current
  set st' := bfsStep flow { st with queue := rest } current with hst'
  have huntouched : ∀ x, x ∉ listenerNames flow →
      alookup st'.levels x = alookup st.levels x
      ∧ alookup st'.pending x = alookup st.pending x :=
    fun x hx => hE.1 x hx
  have hvis' : st'.visited = setInsert current st.visited := hE.2.1
  have hnew : ∀ e ∈ flow.listeners,
      alookup st'.levels e.1
        = if stepMatch flow current st e
              ∧ shouldUpdate (alookup st.levels e.1) (lvlD st current + 1)
                  = true
          then some (lvlD st current + 1) else alookup st.levels e.1 :=
    fun e he => hE.2.2.1 e he
  have hpend' : ∀ e ∈ flow.listeners,
      alookup st'.pending e.1
        = if e.2.1 = CondType.AND then some (andPend current st e.1 e.2.2)
          else alookup st.pending e.1 :=
    fun e he => hE.2.2.2.1 e he
  obtain ⟨enq, hq0, henqnd, henqmem0⟩ := hE.2.2.2.2
  have hq'' : st'.queue = rest ++ enq := hq0
  have henqmem : ∀ x, x ∈ enq ↔ ∃ e ∈ flow.listeners, e.1 = x
      ∧ stepMatch flow current st e
      ∧ shouldUpdate (alookup st.levels e.1) (lvlD st current + 1) = true
      ∧ e.1 ∉ setInsert current st.visited :=
    fun x => henqmem0 x
  have hvis'_mem : ∀ x, x ∈ st'.visited ↔ x = current ∨ x ∈ st.visited := by
    intro x
    rw [hvis']
    exact mem_setInsert current x st.visited
  have hfroz : ∀ x, assigned st x →
      alookup st'.levels x = alookup st.levels x := by
    intro x hx
    obtain ⟨v, hv⟩ := assigned_iff.1 hx
    by_cases hxl : x ∈ listenerNames flow
    · obtain ⟨e, he, he1⟩ := List.mem_map.1 hxl
      rw [← he1] at hv ⊢
      have hnc : ¬ (stepMatch flow current st e
          ∧ shouldUpdate (alookup st.levels e.1) (lvlD st current + 1)
              = true) := by
        rintro ⟨-, hsu⟩
        rw [hv] at hsu
        have hlt := (shouldUpdate_some_iff v _).1 hsu
        have hle : v ≤ lvlD st current + 1 :=
          hval_le (e.1, v) (mem_of_alookup_eq_some hv)
        omega
      rw [hnew e he, if_neg hnc]
    · exact (huntouched x hxl).1
  have henq_unass : ∀ x ∈ enq, alookup st.levels x = none := by
    intro x hx
    obtain ⟨e, he, he1, _, hsu, _⟩ := (henqmem x).1 hx
    cases hvx : alookup st.levels e.1 with
    | none =>
      rw [← he1]
      exact hvx
    | some v =>
      exfalso
      rw [hvx] at hsu
      have hlt := (shouldUpdate_some_iff v _).1 hsu
      have hle : v ≤ lvlD st current + 1 :=
        hval_le (e.1, v) (mem_of_alookup_eq_some hvx)
      omega
  have hlvl_enq : ∀ x ∈ enq,
      alookup st'.levels x = some (lvlD st current + 1) := by
    intro x hx
    obtain ⟨e, he, he1, hsm, hsu, _⟩ := (henqmem x).1 hx
    rw [← he1, hnew e he, if_pos ⟨hsm, hsu⟩]
  have hass' : ∀ x, assigned st x → assigned st' x := by
    intro x hx
    obtain ⟨v, hv⟩ := assigned_iff.1 hx
    exact assigned_of_some (by rw [hfroz x hx]; exact hv)
  have henq_ass' : ∀ x ∈ enq, assigned st' x :=
    fun x hx => assigned_of_some (hlvl_enq x hx)
  have hlvlD_froz : ∀ x, assigned st x → lvlD st' x = lvlD st x := by
    intro x hx
    unfold lvlD
    rw [hfroz x hx]
  have hlvlD_enq : ∀ x ∈ enq, lvlD st' x = lvlD st current + 1 :=
    fun x hx => lvlD_eq (hlvl_enq x hx)
  have henq_nvis : ∀ x ∈ enq, x ≠ current ∧ x ∉ st.visited := by
    intro x hx
    obtain ⟨e, he, he1, _, _, hnv⟩ := (henqmem x).1 hx
    rw [he1] at hnv
    constructor
    · intro hxe
      exact hnv ((mem_setInsert current x st.visited).2 (Or.inl hxe))
    · intro hxv
      exact hnv ((mem_setInsert current x st.visited).2 (Or.inr hxv))
  have hass'_inv : ∀ x, assigned st' x → assigned st x ∨ x ∈ enq := by
    intro x hx
    by_cases hold : assigned st x
    · exact Or.inl hold
    · right
      by_cases hxl : x ∈ listenerNames flow
      · obtain ⟨e, he, he1⟩ := List.mem_map.1 hxl
        by_cases hcond : stepMatch flow current st e
            ∧ shouldUpdate (alookup st.levels e.1) (lvlD st current + 1)
                = true
        · refine (henqmem x).2 ⟨e, he, he1, hcond.1, hcond.2, ?_⟩
          rw [he1]
          intro hmem
          rcases (mem_setInsert current x st.visited).1 hmem with h1 | h1
          · exact hold (h1 ▸ hcur_ass)
          · exact hold (hB9 x h1)
        · exfalso
          obtain ⟨v, hv'⟩ := assigned_iff.1 hx
          rw [← he1] at hv'
          rw [hnew e he, if_neg hcond] at hv'
          exact hold (assigned_of_some (he1 ▸ hv'))
      · exfalso
        obtain ⟨v, hv'⟩ := assigned_iff.1 hx
        rw [(huntouched x hxl).1] at hv'
        exact hold (assigned_of_some hv')
  have hKND' : (st'.levels.map Prod.fst).Nodup :=
    bfsStep_keysNodup flow { st with queue := rest } current hB1
  have hp_char : ∀ p ∈ st'.levels,
      ((p.1, p.2) ∈ st.levels)
      ∨ (p.2 = lvlD st current + 1 ∧ p.1 ∈ enq) := by
    intro p hp
    have hpa : alookup st'.levels p.1 = some p.2 :=
      alookup_eq_some_of_mem hKND' hp
    rcases hass'_inv p.1 (assigned_of_some hpa) with h1 | h1
    · left
      have hv2 : alookup st.levels p.1 = some p.2 := by
        rw [← hfroz p.1 h1]
        exact hpa
      exact mem_of_alookup_eq_some hv2
    · right
      have h2 := hlvl_enq p.1 h1
      rw [hpa] at h2
      exact ⟨Option.some.inj h2, h1⟩
  refine ⟨⟨?_, ?_, ?_, ?_, ?_, ?_, ?_, ?_, ?_, ?_, ?_⟩, ?_, ?_, ?_, ?_⟩
  · exact hKND'
  · rw [hq'']
    apply List.Nodup.append hrest_nd henqnd
    intro x hx1 hx2
    obtain ⟨v, hv⟩ := assigned_iff.1 (hB5 x (hrest_q x hx1))
    rw [henq_unass x hx2] at hv
    exact Option.noConfusion hv
  · rw [hvis']
    unfold setInsert
    rw [if_neg hcur_nvis]
    exact List.nodup_cons.2 ⟨hcur_nvis, hB3⟩
  · intro q hqm
    rw [hq''] at hqm
    intro hqv
    rcases (hvis'_mem q).1 hqv with h1 | h1
    · rcases List.mem_append.1 hqm with h2 | h2
      · exact hcur_nrest (h1 ▸ h2)
      · exact (henq_nvis q h2).1 h1
    · rcases List.mem_append.1 hqm with h2 | h2
      · exact hB4 q (hrest_q q h2) h1
      · exact (henq_nvis q h2).2 h1
  · intro q hqm
    rw [hq''] at hqm
    rcases List.mem_append.1 hqm with h2 | h2
    · exact hass' q (hB5 q (hrest_q q h2))
    · exact henq_ass' q h2
  · rw [hq'']
    apply List.pairwise_append.2
    refine ⟨?_, ?_, ?_⟩
    · refine List.Pairwise.imp_of_mem ?_ hrest_pw
      intro a b ha hb hr
      rw [hlvlD_froz a (hB5 a (hrest_q a ha)),
        hlvlD_froz b (hB5 b (hrest_q b hb))]
      exact hr
    · refine List.pairwise_of_forall_mem_list ?_
      intro a ha b hb
      rw [hlvlD_enq a ha, hlvlD_enq b hb]
    · intro a ha b hb
      rw [hlvlD_froz a (hB5 a (hrest_q a ha)), hlvlD_enq b hb]
      obtain ⟨v, hv⟩ := assigned_iff.1 (hB5 a (hrest_q a ha))
      rw [lvlD_eq hv]
      exact hval_le (a, v) (mem_of_alookup_eq_some hv)
  · intro q hqm p hp
    rw [hq''] at hqm
    rcases hp_char p hp with hpo | ⟨hpe, _⟩
    · rcases List.mem_append.1 hqm with h2 | h2
      · rw [hlvlD_froz q (hB5 q (hrest_q q h2))]
        exact hB7 q (hrest_q q h2) p hpo
      · rw [hlvlD_enq q h2]
        have := hval_le (p.1, p.2) hpo
        omega
    · rcases List.mem_append.1 hqm with h2 | h2
      · rw [hlvlD_froz q (hB5 q (hrest_q q h2)), hpe]
        have := hrest_ge q h2
        omega
      · rw [hlvlD_enq q h2, hpe]
        omega
  · intro p hp
    rcases hp_char p hp with hpo | ⟨_, hpe⟩
    · rcases hB8 (p.1, p.2) hpo with h1 | h1
      · exact Or.inl ((hvis'_mem p.1).2 (Or.inr h1))
      · rw [hq] at h1
        rcases List.mem_cons.1 h1 with h2 | h2
        · exact Or.inl ((hvis'_mem p.1).2 (Or.inl h2))
        · refine Or.inr ?_
          rw [hq'']
          exact List.mem_append.2 (Or.inl h2)
    · refine Or.inr ?_
      rw [hq'']
      exact List.mem_append.2 (Or.inr hpe)
  · intro v hv
    rcases (hvis'_mem v).1 hv with h1 | h1
    · exact h1 ▸ hass' current hcur_ass
    · exact hass' v (hB9 v h1)
  · intro v hv q hqm
    rw [hq''] at hqm
    rcases (hvis'_mem v).1 hv with h1 | h1
    · rw [h1, hlvlD_froz current hcur_ass]
      rcases List.mem_append.1 hqm with h2 | h2
      · rw [hlvlD_froz q (hB5 q (hrest_q q h2))]
        exact hrest_ge q h2
      · rw [hlvlD_enq q h2]
        omega
    · rw [hlvlD_froz v (hB9 v h1)]
      rcases List.mem_append.1 hqm with h2 | h2
      · rw [hlvlD_froz q (hB5 q (hrest_q q h2))]
        exact hB10 v h1 q (hrest_q q h2)
      · rw [hlvlD_enq q h2]
        have := hB10 v h1 current hcur_q
        omega
  · exact bfsStep_keysOK flow { st with queue := rest } current hB11
  · intro e he hAND
    have hpD : pendD st' e.1 = andPend current st e.1 e.2.2 := by
      unfold pendD
      rw [hpend' e he, if_pos hAND]
      rfl
    constructor
    · intro x hx
      rw [hpD] at hx
      unfold andPend at hx
      by_cases hc : current ∈ e.2.2
      · rw [if_pos hc] at hx
        rcases (mem_setInsert current x (pendD st e.1)).1 hx with h1 | h1
        · exact ⟨h1 ▸ hc, (hvis'_mem x).2 (Or.inl h1)⟩
        · obtain ⟨h2, h3⟩ := (hP e he hAND).1 x h1
          exact ⟨h2, (hvis'_mem x).2 (Or.inr h3)⟩
      · rw [if_neg hc] at hx
        obtain ⟨h2, h3⟩ := (hP e he hAND).1 x hx
        exact ⟨h2, (hvis'_mem x).2 (Or.inr h3)⟩
    · intro x hxt hxv
      rw [hpD]
      unfold andPend
      rcases (hvis'_mem x).1 hxv with h1 | h1
      · subst h1
        rw [if_pos hxt]
        exact (mem_setInsert x x _).2 (Or.inl rfl)
      · have hold := (hP e he hAND).2 x hxt h1
        by_cases hc : current ∈ e.2.2
        · rw [if_pos hc]
          exact (mem_setInsert current x _).2 (Or.inr hold)
        · rw [if_neg hc]
          exact hold
  · intro e he hAND hne hss
    have hpD : pendD st' e.1 = andPend current st e.1 e.2.2 := by
      unfold pendD
      rw [hpend' e he, if_pos hAND]
      rfl
    rw [hpD] at hss
    have hsm : stepMatch flow current st e := Or.inl (Or.inr ⟨hAND, hss⟩)
    by_cases hsu : shouldUpdate (alookup st.levels e.1)
        (lvlD st current + 1) = true
    · exact assigned_of_some (by rw [hnew e he, if_pos ⟨hsm, hsu⟩])
    · cases hvx : alookup st.levels e.1 with
      | none =>
        exact absurd (by rw [hvx]; rfl : shouldUpdate (alookup st.levels e.1)
          (lvlD st current + 1) = true) hsu
      | some v =>
        exact hass' e.1 (assigned_of_some hvx)
  · intro e he hns hassx
    by_cases hold : assigned st e.1
    · have hJ := hO e he hns hold
      have hfz : lvlD st' e.1 = lvlD st e.1 := hlvlD_froz e.1 hold
      rcases hJ with ⟨hor, u, hu, hm, heq⟩ | ⟨hand, hJ2⟩
      · left
        refine ⟨hor, u, (hvis'_mem u).2 (Or.inr hu), hm, ?_⟩
        rw [hfz, hlvlD_froz u (hB9 u hu)]
        exact heq
      · right
        refine ⟨hand, ?_⟩
        rcases hJ2 with ⟨u, hu, hm, heq⟩ | htm | ⟨hall, ⟨t, ht, heq⟩, hub⟩
        · refine Or.inl ⟨u, (hvis'_mem u).2 (Or.inr hu), hm, ?_⟩
          rw [hfz, hlvlD_froz u (hB9 u hu)]
          exact heq
        · exact Or.inr (Or.inl htm)
        · refine Or.inr (Or.inr ⟨?_, ⟨t, ht, ?_⟩, ?_⟩)
          · intro t' ht'
            exact (hvis'_mem t').2 (Or.inr (hall t' ht'))
          · rw [hfz, hlvlD_froz t (hB9 t (hall t ht))]
            exact heq
          · intro t' ht'
            rw [hfz, hlvlD_froz t' (hB9 t' (hall t' ht'))]
            exact hub t' ht'
    · have hnone : alookup st.levels e.1 = none := by
        cases hvx : alookup st.levels e.1 with
        | none => rfl
        | some v => exact absurd (assigned_of_some hvx) hold
      have hcond : stepMatch flow current st e
          ∧ shouldUpdate (alookup st.levels e.1) (lvlD st current + 1)
              = true := by
        by_contra hc
        obtain ⟨v, hv⟩ := assigned_iff.1 hassx
        rw [hnew e he, if_neg hc, hnone] at hv
        exact Option.noConfusion hv
      have hval : alookup st'.levels e.1 = some (lvlD st current + 1) := by
        rw [hnew e he, if_pos hcond]
      have hlv' : lvlD st' e.1 = lvlD st current + 1 := lvlD_eq hval
      have hlvc : lvlD st' current = lvlD st current :=
        hlvlD_froz current hcur_ass
      rcases hcond.1 with hem | hrm
      · rcases hem with ⟨hor, hcm⟩ | ⟨hand, hss⟩
        · left
          exact ⟨hor, current, (hvis'_mem current).2 (Or.inl rfl),
            Or.inl hcm, by rw [hlv', hlvc]⟩
        · right
          refine ⟨hand, ?_⟩
          by_cases htm : e.2.2 = []
          · exact Or.inr (Or.inl htm)
          · have hcm : current ∈ e.2.2 := by
              by_contra hcm
              have hap : andPend current st e.1 e.2.2 = pendD st e.1 := by
                unfold andPend
                rw [if_neg hcm]
              rw [hap] at hss
              exact hold (hC e he hand htm hss)
            have hAP : andPend current st e.1 e.2.2
                = setInsert current (pendD st e.1) := by
              unfold andPend
              rw [if_pos hcm]
            refine Or.inr (Or.inr
              ⟨?_, ⟨current, hcm, by rw [hlv', hlvc]⟩, ?_⟩)
            · intro t ht
              have h1 := hss.1 t ht
              rw [hAP] at h1
              rcases (mem_setInsert current t _).1 h1 with h2 | h2
              · exact (hvis'_mem t).2 (Or.inl h2)
              · exact (hvis'_mem t).2 (Or.inr ((hP e he hand).1 t h2).2)
            · intro t ht
              have h1 := hss.1 t ht
              rw [hAP] at h1
              rw [hlv']
              rcases (mem_setInsert current t _).1 h1 with h2 | h2
              · rw [h2, hlvc]
              · have htv := ((hP e he hand).1 t h2).2
                have hle := hB10 t htv current hcur_q
                rw [hlvlD_froz t (hB9 t htv)]
                omega
      · cases hc2 : e.2.1 with
        | OR =>
          left
          exact ⟨hc2, current, (hvis'_mem current).2 (Or.inl rfl),
            Or.inr hrm, by rw [hlv', hlvc]⟩
        | AND =>
          right
          exact ⟨hc2, Or.inl ⟨current, (hvis'_mem current).2 (Or.inl rfl),
            hrm, by rw [hlv', hlvc]⟩⟩
  · intro e he hor u hu hm
    rcases (hvis'_mem u).1 hu with h1 | h1
    · rw [h1] at hm ⊢
      have hsm : stepMatch flow current st e := by
        rcases hm with h2 | h2
        · exact Or.inl (Or.inl ⟨hor, h2⟩)
        · exact Or.inr h2
      by_cases hsu : shouldUpdate (alookup st.levels e.1)
          (lvlD st current + 1) = true
      · have hval : alookup st'.levels e.1
            = some (lvlD st current + 1) := by
          rw [hnew e he, if_pos ⟨hsm, hsu⟩]
        refine ⟨assigned_of_some hval, ?_⟩
        rw [lvlD_eq hval, hlvlD_froz current hcur_ass]
      · cases hvx : alookup st.levels e.1 with
        | none =>
          exact absurd (by rw [hvx]; rfl : shouldUpdate (alookup st.levels e.1)
            (lvlD st current + 1) = true) hsu
        | some v =>
          have hnlt : ¬ (lvlD st current + 1 < v) := by
            intro hlt
            exact hsu (by
              rw [hvx]
              exact (shouldUpdate_some_iff v _).2 hlt)
          have hfz : alookup st'.levels e.1 = some v := by
            rw [hfroz e.1 (assigned_of_some hvx)]
            exact hvx
          refine ⟨assigned_of_some hfz, ?_⟩
          rw [lvlD_eq hfz, hlvlD_froz current hcur_ass]
          omega
    · obtain ⟨hassold, hle⟩ := hS e he hor u h1 hm
      refine ⟨hass' e.1 hassold, ?_⟩
      rw [hlvlD_froz e.1 hassold, hlvlD_froz u (hB9 u h1)]
      exact hle

/-- The invariant is preserved by any number of loop iterations. -/
theorem inv_run (flow : Flow) (hNL : (listenerNames flow).Nodup) :
    ∀ (n : Nat) (st : LState), Inv flow st → Inv flow (bfsRun flow n st) := by
  intro n
  induction n with
  | zero =>
    intro st h
    exact h
  | succ n ih =>
    intro st h
    show Inv flow (bfsRun flow (n + 1) st)
    rw [show bfsRun flow (n + 1) st
        = (match st.queue with
           | [] => st
           | current :: rest =>
               bfsRun flow n (bfsStep flow { st with queue := rest } current))
        from rfl]
    cases hq : st.queue with
    | nil => exact h
    | cons current rest =>
      exact ih _ (inv_step flow hNL st current rest hq h)

/-- A visited set satisfying the invariant cannot exceed the number of
method and listener names. -/
theorem visited_length_le (flow : Flow) (st : LState) (hInv : Inv flow st) :
    st.visited.length
      ≤ (methodNames flow).length + (listenerNames flow).length := by
  obtain ⟨⟨_, _, hB3, _, _, _, _, _, hB9, _, hB11⟩, -, -, -, -⟩ := hInv
  have hsub : st.visited ⊆ methodNames flow ++ listenerNames flow := by
    intro v hv
    obtain ⟨val, hval⟩ := assigned_iff.1 (hB9 v hv)
    rcases hB11 (v, val) (mem_of_alookup_eq_some hval) with h | h
    · exact List.mem_append.2 (Or.inl h)
    · exact List.mem_append.2 (Or.inr h)
  have hle := (hB3.subperm hsub).length_le
  rw [List.length_append] at hle
  exact hle

/-- With the provided fuel, every iteration visits a fresh name, so the
queue drains before the fuel runs out. -/
theorem bfsRun_drains (flow : Flow) (hNL : (listenerNames flow).Nodup) :
    ∀ (n : Nat) (st : LState), Inv flow st →
      (methodNames flow).length + (listenerNames flow).length
        < st.visited.length + n →
      (bfsRun flow n st).queue = [] := by
  intro n
  induction n with
  | zero =>
    intro st hInv hcount
    exfalso
    have hb := visited_length_le flow st hInv
    omega
  | succ n ih =>
    intro st hInv hcount
    show (bfsRun flow (n + 1) st).queue = []
    rw [show bfsRun flow (n + 1) st
        = (match st.queue with
           | [] => st
           | current :: rest =>
               bfsRun flow n (bfsStep flow { st with queue := rest } current))
        from rfl]
    cases hq : st.queue with
    | nil => exact hq
    | cons current rest =>
      apply ih
      · exact inv_step flow hNL st current rest hq hInv
      · have hcur_nvis : current ∉ st.visited := by
          apply hInv.1.2.2.2.1 current
          rw [hq]
          exact List.mem_cons_self _ _
        have hvlen : (bfsStep flow { st with queue := rest }
            current).visited.length = st.visited.length + 1 := by
          rw [(bfsStep_effect flow hNL { st with queue := rest }
            current).2.1]
          unfold setInsert
          rw [if_neg hcur_nvis]
          rfl
        omega

/-- The state in which `calculate_node_levels` ends satisfies the invariant
and has an empty queue. -/
theorem bfsFinal_inv (flow : Flow) (hNM : (methodNames flow).Nodup)
    (hNL : (listenerNames flow).Nodup) :
    Inv flow (bfsFinal flow) ∧ (bfsFinal flow).queue = [] := by
  constructor
  · exact inv_run flow hNL (levelsFuel flow) (initState flow)
      (inv_init flow hNM)
  · apply bfsRun_drains flow hNL (levelsFuel flow) (initState flow)
      (inv_init flow hNM)
    have h1 : (initState flow).visited.length = 0 := rfl
    have h2 : (methodNames flow).length = flow.methods.length :=
      List.length_map _ _
    have h3 : (listenerNames flow).length = flow.listeners.length :=
      List.length_map _ _
    rw [h1, h2, h3,
      show levelsFuel flow
        = flow.methods.length + flow.listeners.length + 1 from rfl]
    omega

/-- In the final state every assigned name has been visited. -/
theorem bfsFinal_assigned_visited (flow : Flow)
    (hNM : (methodNames flow).Nodup) (hNL : (listenerNames flow).Nodup) :
    ∀ x, assigned (bfsFinal flow) x → x ∈ (bfsFinal flow).visited := by
  intro x hx
  obtain ⟨hInv, hqe⟩ := bfsFinal_inv flow hNM hNL
  obtain ⟨⟨_, _, _, _, _, _, _, hB8, _, _, _⟩, -, -, -, -⟩ := hInv
  obtain ⟨v, hv⟩ := assigned_iff.1 hx
  rcases hB8 (x, v) (mem_of_alookup_eq_some hv) with h | h
  · exact h
  · rw [hqe] at h
    exact absurd h (List.not_mem_nil x)

/-- C2 (amended): for an AND-listener that is not a start method, has a
non-empty trigger set, and none of whose triggers is a declared path label
of a router, `calculate_node_levels` assigns the listener a level exactly
when every trigger has one, and that level is one plus the maximum of its
triggers' levels (each name's level is set at most once after seeding, so
these are also the first satisfying levels).  When a trigger is a router
path label the router block can assign the listener while another trigger
is still absent, as the recorded counterexample shows. -/
theorem claim_C2 (flow : Flow) (hNM : (methodNames flow).Nodup)
    (hNL : (listenerNames flow).Nodup)
    (e : String × CondType × List String) (he : e ∈ flow.listeners)
    (hAND : e.2.1 = CondType.AND) (hne : e.2.2 ≠ [])
    (hstart : isStart flow e.1 = false)
    (hnr : ∀ u ∈ flow.routers, ∀ p ∈ pathsD flow u, p ∉ e.2.2) :
    (alookup (calculate_node_levels flow) e.1 ≠ none
      ↔ ∀ t ∈ e.2.2, alookup (calculate_node_levels flow) t ≠ none)
    ∧ (∀ v, alookup (calculate_node_levels flow) e.1 = some v →
        (∃ t ∈ e.2.2, ∃ w, alookup (calculate_node_levels flow) t = some w
          ∧ v = w + 1)
        ∧ (∀ t ∈ e.2.2, ∀ w,
            alookup (calculate_node_levels flow) t = some w
            → w + 1 ≤ v)) := by
  obtain ⟨hInv, hqe⟩ := bfsFinal_inv flow hNM hNL
  obtain ⟨⟨_, _, _, _, _, _, _, _, hB9, _, _⟩, hP, hC, hO, hS⟩ := hInv
  have hvis_of_ass : ∀ x, assigned (bfsFinal flow) x →
      x ∈ (bfsFinal flow).visited :=
    bfsFinal_assigned_visited flow hNM hNL
  have hnrm : ∀ u, ¬ routerMatch flow u e.2.2 := by
    rintro u ⟨hur, p, hp, hpt⟩
    exact hnr u hur p hp hpt
  constructor
  · constructor
    · intro hass t ht
      have hJ := hO e he hstart hass
      rcases hJ with ⟨hor, _⟩ | ⟨_, hJ2⟩
      · rw [hAND] at hor
        exact absurd hor (by decide)
      · rcases hJ2 with ⟨u, _, hrm, _⟩ | htm | ⟨hall, _, _⟩
        · exact absurd hrm (hnrm u)
        · exact absurd htm hne
        · exact hB9 t (hall t ht)
    · intro hallt
      have hsup : ∀ x ∈ e.2.2, x ∈ pendD (bfsFinal flow) e.1 := by
        intro x hx
        exact (hP e he hAND).2 x hx (hvis_of_ass x (hallt x hx))
      have hssub : ∀ x ∈ pendD (bfsFinal flow) e.1, x ∈ e.2.2 :=
        fun x hx => ((hP e he hAND).1 x hx).1
      exact hC e he hAND hne ⟨hsup, hssub⟩
  · intro v hv
    have hv' : alookup (bfsFinal flow).levels e.1 = some v := hv
    have hass : assigned (bfsFinal flow) e.1 := assigned_of_some hv'
    have hJ := hO e he hstart hass
    rcases hJ with ⟨hor, _⟩ | ⟨_, hJ2⟩
    · rw [hAND] at hor
      exact absurd hor (by decide)
    · rcases hJ2 with ⟨u, _, hrm, _⟩ | htm | ⟨hall, ⟨t, ht, heq⟩, hub⟩
      · exact absurd hrm (hnrm u)
      · exact absurd htm hne
      · constructor
        · obtain ⟨w, hw⟩ := assigned_iff.1 (hB9 t (hall t ht))
          refine ⟨t, ht, w, hw, ?_⟩
          rw [lvlD_eq hv', lvlD_eq hw] at heq
          exact heq
        · intro t' ht' w hw
          have hw' : alookup (bfsFinal flow).levels t' = some w := hw
          have hb := hub t' ht'
          rw [lvlD_eq hv', lvlD_eq hw'] at hb
          exact hb

/-- C6: for an OR-listener that is not a start method, any level assigned
by `calculate_node_levels` is one plus the level of some fired predecessor
— a visited step that is one of its triggers, or a router one of whose
declared path labels is among its triggers — every fired predecessor bounds
the level from above (so the level is one plus the minimum over firings),
and the shared update block only ever lowers an already assigned level
(`levels[ln]` becomes `min old new`). -/
theorem claim_C6 (flow : Flow) (hNM : (methodNames flow).Nodup)
    (hNL : (listenerNames flow).Nodup)
    (e : String × CondType × List String) (he : e ∈ flow.listeners)
    (hOR : e.2.1 = CondType.OR) (hstart : isStart flow e.1 = false) :
    (∀ v, alookup (calculate_node_levels flow) e.1 = some v →
      ∃ u, (u ∈ e.2.2 ∨ routerMatch flow u e.2.2)
        ∧ ∃ w, alookup (calculate_node_levels flow) u = some w ∧ v = w + 1)
    ∧ (∀ u w, alookup (calculate_node_levels flow) u = some w →
        (u ∈ e.2.2 ∨ routerMatch flow u e.2.2) →
        ∃ v, alookup (calculate_node_levels flow) e.1 = some v ∧ v ≤ w + 1)
    ∧ (∀ (ln : String) (nl : Nat) (st : LState) (v : Nat),
        alookup st.levels ln = some v →
        alookup (propose ln nl st).levels ln = some (min v nl)) := by
  obtain ⟨hInv, hqe⟩ := bfsFinal_inv flow hNM hNL
  obtain ⟨⟨_, _, _, _, _, _, _, _, hB9, _, _⟩, hP, hC, hO, hS⟩ := hInv
  have hvis_of_ass : ∀ x, assigned (bfsFinal flow) x →
      x ∈ (bfsFinal flow).visited :=
    bfsFinal_assigned_visited flow hNM hNL
  refine ⟨?_, ?_, ?_⟩
  · intro v hv
    have hv' : alookup (bfsFinal flow).levels e.1 = some v := hv
    have hass : assigned (bfsFinal flow) e.1 := assigned_of_some hv'
    have hJ := hO e he hstart hass
    rcases hJ with ⟨_, u, hu, hm, heq⟩ | ⟨hand, _⟩
    · obtain ⟨w, hw⟩ := assigned_iff.1 (hB9 u hu)
      refine ⟨u, hm, w, hw, ?_⟩
      rw [lvlD_eq hv', lvlD_eq hw] at heq
      exact heq
    · rw [hOR] at hand
      exact absurd hand (by decide)
  · intro u w hw hm
    have hw' : alookup (bfsFinal flow).levels u = some w := hw
    have hu_vis : u ∈ (bfsFinal flow).visited :=
      hvis_of_ass u (assigned_of_some hw')
    obtain ⟨hass, hle⟩ := hS e he hOR u hu_vis hm
    obtain ⟨v, hv⟩ := assigned_iff.1 hass
    refine ⟨v, hv, ?_⟩
    rw [lvlD_eq hv, lvlD_eq hw'] at hle
    exact hle
  · intro ln nl st v hv
    unfold propose
    by_cases hs : shouldUpdate (alookup st.levels ln) nl = true
    · rw [if_pos hs]
      show alookup (aset st.levels ln nl) ln = some (min v nl)
      rw [alookup_aset_self]
      congr 1
      rw [hv] at hs
      have hlt := (shouldUpdate_some_iff v nl).1 hs
      omega
    · rw [if_neg hs]
      rw [hv]
      congr 1
      rw [hv] at hs
      have hnlt : ¬ (nl < v) :=
        fun h => hs ((shouldUpdate_some_iff v nl).2 h)
      omega

/-- Two starts `A` and `B`, an OR-listener `C` on `A`, and an AND-listener
`D` on `{A, C}`: `C` settles at level 1 and `D` at level 2 = 1 + max(0, 1). -/
def flowW : Flow :=
  { methods := [("A", true), ("B", true), ("C", false), ("D", false)],
    listeners := [("C", CondType.OR, ["A"]), ("D", CondType.AND, ["A", "C"])],
    routers := [], routerPaths := [] }

theorem claim_C2_witness :
    (methodNames flowW).Nodup ∧ (listenerNames flowW).Nodup
    ∧ ("D", CondType.AND, ["A", "C"]) ∈ flowW.listeners
    ∧ ((alookup (calculate_node_levels flowW) "D" ≠ none
        ↔ ∀ t ∈ ["A", "C"], alookup (calculate_node_levels flowW) t ≠ none)
      ∧ (∀ v, alookup (calculate_node_levels flowW) "D" = some v →
          (∃ t ∈ ["A", "C"], ∃ w,
            alookup (calculate_node_levels flowW) t = some w ∧ v = w + 1)
          ∧ (∀ t ∈ ["A", "C"], ∀ w,
              alookup (calculate_node_levels flowW) t = some w
              → w + 1 ≤ v))) :=
  ⟨by decide, by decide, by decide,
    claim_C2 flowW (by decide) (by decide) ("D", CondType.AND, ["A", "C"])
      (by decide) rfl (by decide) (by decide) (by decide)⟩

theorem claim_C6_witness :
    (methodNames flowW).Nodup ∧ (listenerNames flowW).Nodup
    ∧ ("C", CondType.OR, ["A"]) ∈ flowW.listeners
    ∧ ((∀ v, alookup (calculate_node_levels flowW) "C" = some v →
        ∃ u, (u ∈ ["A"] ∨ routerMatch flowW u ["A"])
          ∧ ∃ w, alookup (calculate_node_levels flowW) u = some w
            ∧ v = w + 1)
      ∧ (∀ u w, alookup (calculate_node_levels flowW) u = some w →
          (u ∈ ["A"] ∨ routerMatch flowW u ["A"]) →
          ∃ v, alookup (calculate_node_levels flowW) "C" = some v
            ∧ v ≤ w + 1)
      ∧ (∀ (ln : String) (nl : Nat) (st : LState) (v : Nat),
          alookup st.levels ln = some v →
          alookup (propose ln nl st).levels ln = some (min v nl))) :=
  ⟨by decide, by decide, by decide,
    claim_C6 flowW (by decide) (by decide) ("C", CondType.OR, ["A"])
      (by decide) rfl (by decide)⟩

end FlowUtils
